import Mathlib

/-!
# gearbox: ternary search tree and route dispatch

A shallow embedding of `tst.go` (the ternary search tree) and of the route
table, routing-tree builder and matcher that sit on top of it.

Conventions of the embedding:

* a Go `byte` is a natural number (a value below 256); the tree only compares
  bytes, it never does arithmetic on them;
* a Go `string` / `[]byte` is the list of its bytes;
* a Go `interface{}` or func value that may be `nil` is an `Option`, `none`
  being `nil`;
* an operation that indexes a slice returns an `Option` whose `none` is the
  run-time panic "index out of range".
-/

namespace Gearbox

/-- A Go byte. -/
abbrev Byte := Nat

/-! ## tst.go -/

/-- A `*tstNode`: either the nil pointer or a pointer to a node holding the
three links, the character and the value (`none` is the nil interface). -/
inductive tstNode (V : Type) where
  | nil : tstNode V
  | node (lower higher equal : tstNode V) (char : Byte) (value : Option V) : tstNode V
  deriving DecidableEq

namespace tstNode

variable {V : Type}

/-- Function `newTST`: `&tstNode{}`, a node with zero char, nil links, nil value. -/
def newTST : tstNode V := node nil nil nil 0 none

/-- The loop of `Get`. The state is the node `n`, the index `idx` and the
character `char = key[idx]`. Each iteration moves `n` to one of its links;
the `equal` step reads `key[idx]` after the increment, whence the `Option`. -/
def getLoop (key : List Byte) (lastElm : Nat) : tstNode V → Nat → Byte → Option (Option V)
  | nil, _, _ => some none
  | node lower higher equal c value, idx, char =>
    if char < c then getLoop key lastElm lower idx char
    else if char > c then getLoop key lastElm higher idx char
    else if idx = lastElm then some value
    else
      match key[idx + 1]? with
      | none => none
      | some char1 => getLoop key lastElm equal (idx + 1) char1

/-- Method `Get`: `some r` is the returned interface value `r`, `none` is an
index-out-of-range panic. -/
def Get (t : tstNode V) (key : List Byte) : Option (Option V) :=
  if key.length < 1 then some none
  else
    match t with
    | nil => some none
    | t =>
      match key[0]? with
      | none => none
      | some char => getLoop key (key.length - 1) t 0 char

/-- Method `insert` entered with `n == nil`. The fresh node gets
`char = key[index]`, so neither `char < n.char` nor `char > n.char` holds and
only the last branch runs: the value is stored when `index == lastElm`,
otherwise `n.equal = insert(nil, key, index+1, value)`. The first argument is
`len(key) - index`, the distance to the end of the key; when it is zero
`key[index]` is out of range. -/
def insertNil (key : List Byte) (value : Option V) : Nat → Nat → Option (tstNode V)
  | 0, _ => none
  | dist + 1, index =>
    match key[index]? with
    | none => none
    | some char =>
      if index = key.length - 1 then some (node nil nil nil char value)
      else (insertNil key value dist (index + 1)).map fun e => node nil nil e char none

/-- Method `insert` (the receiver is not used by the Go code). The result is
the returned pointer, with the in-place updates applied; `none` is an
index-out-of-range panic at `key[index]`. -/
def insert : tstNode V → List Byte → Nat → Option V → Option (tstNode V)
  | nil, key, index, value => insertNil key value (key.length - index) index
  | node lower higher equal c val, key, index, value =>
    match key[index]? with
    | none => none
    | some char =>
      if char < c then
        (insert lower key index value).map fun l => node l higher equal c val
      else if char > c then
        (insert higher key index value).map fun h => node lower h equal c val
      else if index = key.length - 1 then some (node lower higher equal c value)
      else (insert equal key (index + 1) value).map fun e => node lower higher e c val

/-- Method `Set`: the tree the receiver points to afterwards. On a non-nil
receiver `insert` updates the receiver in place and returns it. On a nil
receiver `insert` allocates a node that `Set` discards, so the receiver stays
nil. -/
def Set (t : tstNode V) (key : List Byte) (value : Option V) : Option (tstNode V) :=
  if key.length < 1 then some t
  else
    match t with
    | nil => (insert nil key 0 value).map fun _ => nil
    | t => insert t key 0 value

/-- Method `GetString`: `Get` on the bytes of the string. -/
def GetString (t : tstNode V) (key : List Byte) : Option (Option V) := Get t key

/-- The tree reached from `t` by a sequence of `Set` calls, in order. -/
def setAll (t : tstNode V) : List (List Byte × Option V) → Option (tstNode V)
  | [] => some t
  | (k, v) :: rest => (Set t k v).bind fun t1 => setAll t1 rest

/-! ### The tree as a finite map from key suffixes

`lookup` and `put` are `Get` and `insert` expressed on the part of the key
that is still to be consumed, `key[idx:]`. They are used in proofs only. -/

/-- The value found for the non-empty key suffix `rest` below `n`. -/
def lookup : tstNode V → List Byte → Option V
  | nil, _ => none
  | node _ _ _ _ _, [] => none
  | node lower higher equal c value, ch :: rest =>
    if ch < c then lookup lower (ch :: rest)
    else if ch > c then lookup higher (ch :: rest)
    else if rest = [] then value
    else lookup equal rest

/-- The chain of fresh nodes that spells `rest` and carries `value` at its end. -/
def chain (value : Option V) : List Byte → tstNode V
  | [] => nil
  | [ch] => node nil nil nil ch value
  | ch :: rest => node nil nil (chain value rest) ch none

/-- The tree after inserting the non-empty key suffix `rest` below `n`. -/
def put : tstNode V → List Byte → Option V → tstNode V
  | nil, rest, value => chain value rest
  | node lower higher equal c val, [], _ => node lower higher equal c val
  | node lower higher equal c val, ch :: rest, value =>
    if ch < c then node (put lower (ch :: rest) value) higher equal c val
    else if ch > c then node lower (put higher (ch :: rest) value) equal c val
    else if rest = [] then node lower higher equal c value
    else node lower higher (put equal rest value) c val

/-- The tree a `Set` call leaves behind, on key suffixes. -/
def setPure (t : tstNode V) (key : List Byte) (value : Option V) : tstNode V :=
  if key = [] then t
  else
    match t with
    | nil => nil
    | t => put t key value

/-- The keys that end at a node carrying a non-nil value: a node spells the
chars of the nodes whose `equal` link leads to it, followed by its own char. -/
def valuedKeys : tstNode V → List (List Byte)
  | nil => []
  | node lower higher equal c value =>
    valuedKeys lower ++ valuedKeys higher ++
      (match value with
        | none => []
        | some _ => [[c]]) ++
      (valuedKeys equal).map fun k => c :: k

/-! ### Shape of the tree: positions, sizes, sibling chains -/

/-- One of the three links of a node. -/
inductive Link where
  | lower
  | higher
  | equal
  deriving DecidableEq

/-- The subtree reached from `t` along the links `pos`, nil when the way
leaves the tree. A list of links is the position of a node. -/
def follow : tstNode V → List Link → tstNode V
  | t, [] => t
  | nil, _ :: _ => nil
  | node lower higher equal _ _, l :: ls =>
    match l with
    | .lower => follow lower ls
    | .higher => follow higher ls
    | .equal => follow equal ls

/-- The char and the value of the node at position `pos`, `none` when there
is no node at that position. -/
def nodeAt (t : tstNode V) (pos : List Link) : Option (Byte × Option V) :=
  match follow t pos with
  | nil => none
  | node _ _ _ c value => some (c, value)

/-- The number of nodes. -/
def size : tstNode V → Nat
  | nil => 0
  | node lower higher equal _ _ => size lower + size higher + size equal + 1

/-- The chars of the nodes reachable from `n` by following only `lower` and
`higher` links, `n` itself included. -/
def siblingChars : tstNode V → List Byte
  | nil => []
  | node lower higher _ c _ => c :: (siblingChars lower ++ siblingChars higher)

/-- The search-tree ordering at every node: the chars reachable from
`n.lower` by `lower`/`higher` links are smaller than `n.char`, those
reachable from `n.higher` are greater. -/
def ordered : tstNode V → Bool
  | nil => true
  | node lower higher equal c _ =>
    (siblingChars lower).all (fun x => decide (x < c)) &&
      (siblingChars higher).all (fun x => decide (c < x)) &&
      ordered lower && ordered higher && ordered equal

/-- The position of the node at which `key` ends, when the whole path of the
key exists in the tree: the walk of `insert` and `Get`, without creating
anything. -/
def endOf : tstNode V → List Byte → Option (List Link)
  | nil, _ => none
  | node _ _ _ _ _, [] => none
  | node lower higher equal c _, ch :: rest =>
    if ch < c then (endOf lower (ch :: rest)).map fun pos => Link.lower :: pos
    else if ch > c then (endOf higher (ch :: rest)).map fun pos => Link.higher :: pos
    else if rest = [] then some []
    else (endOf equal rest).map fun pos => Link.equal :: pos

/-- The tree with the value of the node at position `pos` replaced; nothing
changes when there is no node there. -/
def setValueAt : tstNode V → List Link → Option V → tstNode V
  | nil, _, _ => nil
  | node lower higher equal c _, [], v => node lower higher equal c v
  | node lower higher equal c value, l :: ls, v =>
    match l with
    | .lower => node (setValueAt lower ls v) higher equal c value
    | .higher => node lower (setValueAt higher ls v) equal c value
    | .equal => node lower higher (setValueAt equal ls v) c value

/-! ### The reads of the key

The indices at which `Get` and `insert` read `key`, in order, whether or not
the read is in range. -/

/-- The indices read by the loop of `Get` (the read `char = key[idx]` after
`idx++`). -/
def getLoopReads (key : List Byte) (lastElm : Nat) : tstNode V → Nat → Byte → List Nat
  | nil, _, _ => []
  | node lower higher equal c _, idx, char =>
    if char < c then getLoopReads key lastElm lower idx char
    else if char > c then getLoopReads key lastElm higher idx char
    else if idx = lastElm then []
    else
      (idx + 1) ::
        match key[idx + 1]? with
        | none => []
        | some char1 => getLoopReads key lastElm equal (idx + 1) char1

/-- The indices read by `Get`: `key[0]` before the loop, then the reads of
the loop. -/
def GetReads (t : tstNode V) (key : List Byte) : List Nat :=
  if key.length < 1 then []
  else
    match t with
    | nil => []
    | t =>
      0 ::
        match key[0]? with
        | none => []
        | some char => getLoopReads key (key.length - 1) t 0 char

/-- The indices read by `insert` entered with `n == nil`. -/
def insertNilReads (key : List Byte) : Nat → Nat → List Nat
  | 0, index => [index]
  | dist + 1, index =>
    index ::
      match key[index]? with
      | none => []
      | some _ =>
        if index = key.length - 1 then []
        else insertNilReads key dist (index + 1)

/-- The indices read by `insert` (`char := key[index]` at every call). -/
def insertReads : tstNode V → List Byte → Nat → List Nat
  | nil, key, index => insertNilReads key (key.length - index) index
  | node lower higher equal c _, key, index =>
    index ::
      match key[index]? with
      | none => []
      | some char =>
        if char < c then insertReads lower key index
        else if char > c then insertReads higher key index
        else if index = key.length - 1 then []
        else insertReads equal key (index + 1)

/-- The indices read by `Set`: those of `insert(t, key, 0, value)`, none for
the empty key. -/
def SetReads (t : tstNode V) (key : List Byte) : List Nat :=
  if key.length < 1 then [] else insertReads t key 0

end tstNode

/-! ## The router

The router (`router.go`) is known through its tests (`router_test.go`) and the
specification. The definitions of this section are modelled from the
specification, with the names the tests use. The literal children of a route
node live in the ternary search tree defined above, the child of the empty
segment beside it. -/

/-- The UTF-8 bytes of a code point. -/
def utf8Char (n : Nat) : List Byte :=
  if n < 128 then [n]
  else if n < 2048 then [192 + n / 64, 128 + n % 64]
  else if n < 65536 then [224 + n / 4096, 128 + n / 64 % 64, 128 + n % 64]
  else [240 + n / 262144, 128 + n / 4096 % 64, 128 + n / 64 % 64, 128 + n % 64]

/-- The bytes of a string literal, as Go stores it. -/
def str (s : String) : List Byte := s.toList.flatMap fun c => utf8Char c.toNat

/-- The byte `/`. -/
def slash : Byte := 47

/-- The wildcard marker, the one-byte segment `*`. -/
def wildcardMarker : List Byte := [42]

/-- Modelled from the spec: the error kinds of section 7 (`ValidationError`
with its three subkinds, `NilHandler`, `ConflictError`), which `router.go`
would define. `IndexOutOfRange` is not an error value of the spec: it stands
for a run-time panic raised by a tree operation. -/
inductive RouterError where
  | EmptyPath
  | MissingLeadingSlash
  | WildcardNotTerminal
  | NilHandler
  | ConflictError
  | IndexOutOfRange
  deriving DecidableEq

deriving instance DecidableEq for Except

/-- Go `strings.Split(s, "/")`: the segments between the slashes of `s`; the
result is never empty, and `""` splits into one empty segment. -/
def splitSlash : List Byte → List (List Byte)
  | [] => [[]]
  | c :: rest =>
    if c = slash then [] :: splitSlash rest
    else
      match splitSlash rest with
      | [] => [[c]]
      | seg :: segs => (c :: seg) :: segs

/-- Modelled from the spec: the segmentation shared by the Validator, the
Builder and the Matcher (4.1: the path is not empty, it must start with `/`,
the remainder is split by `/`; 4.4 step 2: the Matcher splits the same way,
the empty segment before the leading `/` being skipped). -/
def pathSegments (path : List Byte) : Except RouterError (List (List Byte)) :=
  match path with
  | [] => .error .EmptyPath
  | c :: rest =>
    if c = slash then .ok (splitSlash rest) else .error .MissingLeadingSlash

/-- Modelled from the spec: `validateRoutePath` of the missing `router.go`,
section 4.1. `none` is the nil error. The rules in order: empty string,
missing leading slash, a wildcard segment that is not the final one. -/
def validateRoutePath (path : List Byte) : Option RouterError :=
  match pathSegments path with
  | .error e => some e
  | .ok segs =>
    if segs.dropLast.any (fun seg => seg = wildcardMarker) then some .WildcardNotTerminal
    else none

/-- Modelled from the spec: `routeInfo`, the RouteEntry of section 3: method,
path pattern and handler (`none` is a nil func). -/
structure routeInfo (H : Type) where
  Method : List Byte
  Path : List Byte
  Handler : Option H
  deriving DecidableEq

/-- Modelled from the spec: the kind of a RouteNode (section 3). -/
inductive NodeKind where
  | literal
  | parameter
  | wildcard
  deriving DecidableEq

/-- Modelled from the spec: the literal-children lookup structure of a
RouteNode (section 3), from the text of a literal segment to the child node.
Section 3 permits the empty segment as a literal segment and section 4.4 has
it matched literally like any other segment, while the TST of `tst.go` keeps
no value under the empty key (its `Set` and `Get` return at once for it). The
children with a non-empty text are kept in that TST under their text, the
child of the empty segment in a cell of its own (`none` is the nil
pointer). -/
structure literalChildren (V : Type) where
  tree : tstNode V
  emptyChild : Option V

namespace literalChildren

variable {V : Type}

/-- Modelled from the spec: the lookup structure of a new node, with no child
in it. -/
def new : literalChildren V := ⟨tstNode.newTST, none⟩

/-- Modelled from the spec: the lookup of a literal child by the segment's
byte sequence (sections 4.3 and 4.4): `some none` when there is no such child.
A non-empty segment is handed to `Get` of the TST, whose out-of-range panic is
the outer `none`. -/
def get (c : literalChildren V) (seg : List Byte) : Option (Option V) :=
  match seg with
  | [] => some c.emptyChild
  | _ :: _ => tstNode.Get c.tree seg

/-- Modelled from the spec: the insertion of a literal child under the
segment's byte sequence (section 4.3). A non-empty segment is handed to `Set`
of the TST, whose out-of-range panic is the outer `none`. -/
def set (c : literalChildren V) (seg : List Byte) (child : V) : Option (literalChildren V) :=
  match seg with
  | [] => some ⟨c.tree, some child⟩
  | _ :: _ =>
    match tstNode.Set c.tree seg (some child) with
    | none => none
    | some tree1 => some ⟨tree1, c.emptyChild⟩

end literalChildren

/-- Modelled from the spec: `routeNode`, the RouteNode of section 3: the
segment text it stands for, its kind, the handler of the pattern that ends
here (if any), the literal children keyed by the child's segment bytes, at
most one parameter child and at most one wildcard child. -/
inductive routeNode (H : Type) where
  | mk (Name : List Byte) (kind : NodeKind) (handler : Option H)
      (children : literalChildren (routeNode H))
      (paramChild wildcardChild : Option (routeNode H)) : routeNode H

namespace routeNode

variable {H : Type}

/-- Field `Name`. -/
def Name : routeNode H → List Byte
  | mk name _ _ _ _ _ => name

/-- Field `kind`. -/
def kind : routeNode H → NodeKind
  | mk _ k _ _ _ _ => k

/-- Field `handler`. -/
def handler : routeNode H → Option H
  | mk _ _ h _ _ _ => h

/-- Field `children`. -/
def children : routeNode H → literalChildren (routeNode H)
  | mk _ _ _ c _ _ => c

/-- Field `paramChild`. -/
def paramChild : routeNode H → Option (routeNode H)
  | mk _ _ _ _ p _ => p

/-- Field `wildcardChild`. -/
def wildcardChild : routeNode H → Option (routeNode H)
  | mk _ _ _ _ _ w => w

/-- The handler of the wildcard child, nil when there is no such child. -/
def wildcardHandler (n : routeNode H) : Option H :=
  match n.wildcardChild with
  | none => none
  | some w => w.handler

end routeNode

/-- Modelled from the spec: `createEmptyRouteNode(name)` of the missing
`router.go` (the test `TestCreateEmptyNode` checks its `Name`): a node with
no handler, no literal child and no parameter or wildcard child. -/
def createEmptyRouteNode {H : Type} (name : List Byte) : routeNode H :=
  .mk name .literal none literalChildren.new none none

/-- Modelled from the spec: a new node of the given kind with no handler and no
children, as the Builder creates it for a segment that has no node yet. -/
def createRouteNode {H : Type} (name : List Byte) (kind : NodeKind) : routeNode H :=
  .mk name kind none literalChildren.new none none

/-- Modelled from the spec: the classification of a pattern segment during
tree insertion (sections 3 and 4.3). The segment `*` is the wildcard; a
segment whose first byte is the reserved `sentinel` is a parameter; any other
segment, the empty one included, is a literal. The spec reserves the sentinel
character without naming it, so it is a parameter of the model. -/
def segKind (sentinel : Byte) (seg : List Byte) : NodeKind :=
  if seg = wildcardMarker then .wildcard
  else
    match seg with
    | [] => .literal
    | c :: _ => if c = sentinel then .parameter else .literal

/-- Modelled from the spec: the walk of one pattern through a method tree
(section 4.3), on the segments still to be walked. A literal segment, the
empty one included, is looked up among the literal children by its bytes and a
new literal node is created and inserted when it is absent; a parameter or
wildcard segment reuses the parameter or wildcard child or creates it. At the
end of the pattern a node that already holds a handler is a `ConflictError`,
otherwise the handler is stored.

The tree is a value here and a pointer structure in Go: where Go descends
into a child and updates it through the pointer, the result below stores the
updated child back in its slot (for a literal child under the same key). -/
def insertRoute {H : Type} (sentinel : Byte) :
    List (List Byte) → Option H → routeNode H → Except RouterError (routeNode H)
  | [], h, .mk name k handler children p w =>
    match handler with
    | some _ => .error .ConflictError
    | none => .ok (.mk name k h children p w)
  | seg :: rest, h, .mk name k handler children p w =>
    match segKind sentinel seg with
    | .wildcard =>
      match insertRoute sentinel rest h (w.getD (createRouteNode seg .wildcard)) with
      | .error e => .error e
      | .ok child => .ok (.mk name k handler children p (some child))
    | .parameter =>
      match insertRoute sentinel rest h (p.getD (createRouteNode seg .parameter)) with
      | .error e => .error e
      | .ok child => .ok (.mk name k handler children (some child) w)
    | .literal =>
      match children.get seg with
      | none => .error .IndexOutOfRange
      | some found =>
        match insertRoute sentinel rest h (found.getD (createEmptyRouteNode seg)) with
        | .error e => .error e
        | .ok child =>
          match children.set seg child with
          | none => .error .IndexOutOfRange
          | some children1 => .ok (.mk name k handler children1 p w)

/-- Modelled from the spec: the tree of one method (section 4.3): starting
from `root`, every entry of the method is walked in registration order. -/
def insertAll {H : Type} (sentinel : Byte) :
    List (routeInfo H) → routeNode H → Except RouterError (routeNode H)
  | [], root => .ok root
  | e :: es, root =>
    match pathSegments e.Path with
    | .error err => .error err
    | .ok segs =>
      match insertRoute sentinel segs e.Handler root with
      | .error err => .error err
      | .ok root1 => insertAll sentinel es root1

/-- The name of the root node of a method tree. -/
def rootName : List Byte := str "root"

/-- Modelled from the spec: the trees of the listed methods (section 4.3:
entries are grouped by method, each method gets a tree of its own grown from
an empty root). -/
def buildTrees {H : Type} (sentinel : Byte) (entries : List (routeInfo H)) :
    List (List Byte) → Except RouterError (List (List Byte × routeNode H))
  | [] => .ok []
  | m :: ms =>
    match insertAll sentinel (entries.filter fun e => e.Method = m)
        (createEmptyRouteNode rootName) with
    | .error err => .error err
    | .ok root =>
      match buildTrees sentinel entries ms with
      | .error err => .error err
      | .ok trees => .ok ((m, root) :: trees)

/-- Modelled from the spec: the Routing Tree Builder `build(entries)` of
section 4.3, from the route table to the Method Tree Registry, a mapping from
method to root node, or an error. -/
def buildRegistry {H : Type} (sentinel : Byte) (entries : List (routeInfo H)) :
    Except RouterError (List (List Byte × routeNode H)) :=
  buildTrees sentinel entries (entries.map fun e => e.Method).dedup

/-- Modelled from the spec: the router instance `gearbox` of the missing
`router.go`: the route table (`registeredRoutes`, as in the tests), the
optional fallback handler, and the Method Tree Registry, nil until a
construction succeeds. -/
structure gearbox (H : Type) where
  registeredRoutes : List (routeInfo H)
  registeredFallback : Option H
  routingTree : Option (List (List Byte × routeNode H))

/-- The router of the tests: `new(gearbox)` with an empty route table. -/
def gearbox.new {H : Type} : gearbox H := ⟨[], none, none⟩

/-- Modelled from the spec: `registerRoute` of the missing `router.go`,
section 4.2: the router afterwards and the returned error. A nil handler is
`NilHandler`, an invalid path is the Validator's error, otherwise the entry is
appended; no duplicate check is made. -/
def registerRoute {H : Type} (gb : gearbox H) (method path : List Byte)
    (handler : Option H) : gearbox H × Option RouterError :=
  match handler with
  | none => (gb, some .NilHandler)
  | some h =>
    match validateRoutePath path with
    | some e => (gb, some e)
    | none =>
      ({ gb with registeredRoutes := gb.registeredRoutes ++ [⟨method, path, some h⟩] }, none)

/-- Modelled from the spec: `registerFallback` of the missing `router.go`,
section 4.2: a nil handler is `NilHandler`, otherwise the fallback is stored
(a second registration overwrites the first). -/
def registerFallback {H : Type} (gb : gearbox H) (handler : Option H) :
    gearbox H × Option RouterError :=
  match handler with
  | none => (gb, some .NilHandler)
  | some h => ({ gb with registeredFallback := some h }, none)

/-- Modelled from the spec: `constructRoutingTree` of the missing `router.go`
(`buildRoutingTree()` in section 6): the registry is built from the route
table and published; on an error nothing is published and the router is as
before. -/
def constructRoutingTree {H : Type} (sentinel : Byte) (gb : gearbox H) :
    gearbox H × Option RouterError :=
  match buildRegistry sentinel gb.registeredRoutes with
  | .error e => (gb, some e)
  | .ok registry => ({ gb with routingTree := some registry }, none)

/-- Modelled from the spec: the tree walk of the Matcher (section 4.4, steps
3 and 4) on the segments still to be matched, with backtracking precedence
literal, then parameter, then wildcard; a request segment, the empty one
included, is looked up among the literal children by its bytes. At the end of
the path the node's handler is returned, and failing that the wildcard child
matches the zero remaining segments. The result is the handler found, nil when
there is none. -/
def matchSegs {H : Type} :
    List (List Byte) → routeNode H → Except RouterError (Option H)
  | [], n =>
    match n.handler with
    | some h => .ok (some h)
    | none => .ok n.wildcardHandler
  | seg :: rest, .mk name k handler children p w =>
    match children.get seg with
    | none => .error .IndexOutOfRange
    | some found =>
      match (match found with
        | none => Except.ok none
        | some child => matchSegs rest child : Except RouterError (Option H)) with
      | .error e => .error e
      | .ok (some h) => .ok (some h)
      | .ok none =>
        match (match p with
          | none => Except.ok none
          | some child => matchSegs rest child : Except RouterError (Option H)) with
        | .error e => .error e
        | .ok (some h) => .ok (some h)
        | .ok none => .ok (routeNode.mk name k handler children p w).wildcardHandler

/-- Modelled from the spec: the route lookup of the Matcher (section 4.4,
steps 1 to 3): the method's root is looked up in the registry, the path is
split the way the Validator splits it (a path that does not start with `/`
has no segments to walk and matches no route) and walked from the root. -/
def matchRegistered {H : Type} (registry : List (List Byte × routeNode H))
    (method path : List Byte) : Except RouterError (Option H) :=
  match registry.lookup method with
  | none => .ok none
  | some root =>
    match pathSegments path with
    | .error _ => .ok none
    | .ok segs => matchSegs segs root

/-- Modelled from the spec: `matchRoute` of the missing `router.go`, section
4.4: the handler returned for a request, nil when there is none. The empty
path is rejected before the walk and gets neither a route nor the fallback
(step 5); an unbuilt registry yields no handler (section 8); otherwise the
handler of the matched route, and failing that the fallback handler if one is
registered (step 4). -/
def matchRoute {H : Type} (gb : gearbox H) (method path : List Byte) :
    Except RouterError (Option H) :=
  match path with
  | [] => .ok none
  | _ :: _ =>
    match gb.routingTree with
    | none => .ok none
    | some registry =>
      match matchRegistered registry method path with
      | .error e => .error e
      | .ok (some h) => .ok (some h)
      | .ok none => .ok gb.registeredFallback

/-- The router after a sequence of `registerRoute` calls, and the number of
calls that returned no error. -/
def registerAll {H : Type} (gb : gearbox H) :
    List (List Byte × List Byte × Option H) → gearbox H × Nat
  | [] => (gb, 0)
  | (m, p, h) :: calls =>
    match registerRoute gb m p h with
    | (gb1, none) => ((registerAll gb1 calls).1, (registerAll gb1 calls).2 + 1)
    | (gb1, some _) => registerAll gb1 calls

/-- The captured values of a match: each capture is the name stored on the
capturing node together with the request segments it covers. -/
abbrev Captures := List (List Byte × List (List Byte))

/-- Modelled from the spec: the match through the wildcard child (section
4.4, step 3): when the child exists and holds a handler, it matches all the
remaining segments, none included, as a single capture stored under the
child's `Name`. -/
def wildcardCapture {H : Type} (n : routeNode H) (remaining : List (List Byte)) :
    Option (H × Captures) :=
  match n.wildcardChild with
  | none => none
  | some w =>
    match w.handler with
    | none => none
    | some h => some (h, [(w.Name, remaining)])

/-- Modelled from the spec: the tree walk of the Matcher with its captures
(section 4.4, steps 3 and 4; the contract is `match(method, path) →
(Handler, paramValues) | none`). It is the walk of `matchSegs`; a match
through the parameter child binds the current segment's text to the name
stored on that child (section 4.3: the parameter name is stored on the node
for later capture). -/
def matchCapture {H : Type} :
    List (List Byte) → routeNode H → Except RouterError (Option (H × Captures))
  | [], n =>
    match n.handler with
    | some h => .ok (some (h, []))
    | none => .ok (wildcardCapture n [])
  | seg :: rest, .mk name k handler children p w =>
    match children.get seg with
    | none => .error .IndexOutOfRange
    | some found =>
      match (match found with
        | none => Except.ok none
        | some child => matchCapture rest child :
          Except RouterError (Option (H × Captures))) with
      | .error e => .error e
      | .ok (some r) => .ok (some r)
      | .ok none =>
        match p with
        | none => .ok (wildcardCapture (routeNode.mk name k handler children p w) (seg :: rest))
        | some child =>
          match matchCapture rest child with
          | .error e => .error e
          | .ok (some (h, caps)) => .ok (some (h, (child.Name, [seg]) :: caps))
          | .ok none =>
            .ok (wildcardCapture (routeNode.mk name k handler children p w) (seg :: rest))

/-- Modelled from the spec: `matchRoute` with the captured parameter values
(section 4.4): as `matchRoute`, the handler of a matched route coming with
its captures and the fallback handler with none. -/
def matchRouteParams {H : Type} (gb : gearbox H) (method path : List Byte) :
    Except RouterError (Option (H × Captures)) :=
  match path with
  | [] => .ok none
  | _ :: _ =>
    match gb.routingTree with
    | none => .ok none
    | some registry =>
      match registry.lookup method with
      | none => .ok (gb.registeredFallback.map fun h => (h, []))
      | some root =>
        match pathSegments path with
        | .error _ => .ok (gb.registeredFallback.map fun h => (h, []))
        | .ok segs =>
          match matchCapture segs root with
          | .error e => .error e
          | .ok (some r) => .ok (some r)
          | .ok none => .ok (gb.registeredFallback.map fun h => (h, []))

/-! ## context.go -/

/-- The largest Go `int`, on a 64-bit platform. -/
def maxInt : Int := 9223372036854775807

/-- Go `int` arithmetic wraps around silently: the 64-bit two's complement
value of the mathematical result `x`. -/
def wrapInt (x : Int) : Int :=
  (x + 9223372036854775808) % 18446744073709551616 - 9223372036854775808

/-- The struct `context`: the request context, the parameter values, the
handler chain and the index of the handler being executed. `R`, `P` and `F`
stand for `*fasthttp.RequestCtx`, `map[string]string` and `handlerFunc`. -/
structure context (R P F : Type) where
  requestCtx : R
  paramValues : P
  handlers : List F
  index : Int
  deriving DecidableEq

/-- Method `Next` up to the call of the handler: `ctx.index++`, the test
`ctx.index < len(ctx.handlers)` and the read `ctx.handlers[ctx.index]`. The
result is the context after the increment and the handler that `Next` goes
on to invoke, if any; `none` is the index-out-of-range panic of the read (a
negative index is out of range). -/
def nextStep {R P F : Type} (ctx : context R P F) : Option (context R P F × Option F) :=
  let ctx1 : context R P F := { ctx with index := wrapInt (ctx.index + 1) }
  if ctx1.index < (ctx1.handlers.length : Int) then
    if ctx1.index < 0 then none
    else
      match ctx1.handlers[ctx1.index.toNat]? with
      | none => none
      | some h => some (ctx1, some h)
  else some (ctx1, none)

/-- Method `Next`: the context afterwards, `call h c` being the context the
handler `h` leaves when it is invoked on `c`. -/
def Next {R P F : Type} (call : F → context R P F → context R P F) (ctx : context R P F) :
    Option (context R P F) :=
  match nextStep ctx with
  | none => none
  | some (ctx1, none) => some ctx1
  | some (ctx1, some h) => some (call h ctx1)

/-! ### The routing tree seen through its slots

The definitions below are used in proofs only. A node has one slot per
literal key, one parameter slot and one wildcard slot; `childAt` reads a slot
and `setChild` writes it. -/

namespace literalChildren

variable {V : Type}

/-- The child that `get` finds, freed of the panic outcome of the tree
operation. -/
def lookup (c : literalChildren V) (seg : List Byte) : Option V :=
  match seg with
  | [] => c.emptyChild
  | _ :: _ => tstNode.lookup c.tree seg

/-- The lookup structure that `set` leaves, freed of the panic outcome of the
tree operation. -/
def put (c : literalChildren V) (seg : List Byte) (child : V) : literalChildren V :=
  match seg with
  | [] => ⟨c.tree, some child⟩
  | _ :: _ => ⟨tstNode.setPure c.tree seg (some child), c.emptyChild⟩

end literalChildren

namespace routeNode

variable {H : Type}

/-- The child in the slot that a segment of kind `k` and text `seg` selects. -/
def childAt (k : NodeKind) (seg : List Byte) (n : routeNode H) : Option (routeNode H) :=
  match k with
  | .wildcard => n.wildcardChild
  | .parameter => n.paramChild
  | .literal => n.children.lookup seg

end routeNode

/-- The walk of `matchSegs` freed of the panic outcome of the tree operations. -/
def matchPure {H : Type} : List (List Byte) → routeNode H → Option H
  | [], n =>
    match n.handler with
    | some h => some h
    | none => n.wildcardHandler
  | seg :: rest, n =>
    match (match n.childAt .literal seg with
      | none => none
      | some c => matchPure rest c : Option H) with
    | some h => some h
    | none =>
      match (match n.childAt .parameter seg with
        | none => none
        | some c => matchPure rest c : Option H) with
      | some h => some h
      | none => n.wildcardHandler

/-- The walk of `matchCapture` freed of the panic outcome of the tree
operations. -/
def capturePure {H : Type} : List (List Byte) → routeNode H → Option (H × Captures)
  | [], n =>
    match n.handler with
    | some h => some (h, [])
    | none => wildcardCapture n []
  | seg :: rest, n =>
    match (match n.childAt .literal seg with
      | none => none
      | some c => capturePure rest c : Option (H × Captures)) with
    | some r => some r
    | none =>
      match n.paramChild with
      | none => wildcardCapture n (seg :: rest)
      | some pc =>
        match capturePure rest pc with
        | some (h, caps) => some (h, (pc.Name, [seg]) :: caps)
        | none => wildcardCapture n (seg :: rest)

namespace tstNode

variable {V : Type}

/-! ## Lemmas on the ternary search tree -/

/-! ### `Get`, `insert` and `Set` never index out of range -/

theorem getLoop_eq_lookup (key : List Byte) :
    ∀ (n : tstNode V) (idx : Nat) (char : Byte), key[idx]? = some char →
      getLoop key (key.length - 1) n idx char = some (lookup n (key.drop idx)) := by
  intro n
  induction n with
  | nil => intro idx char _; simp [getLoop, lookup]
  | node lower higher equal c value ihl ihh ihe =>
    intro idx char h
    obtain ⟨hlt, hget⟩ := List.getElem?_eq_some_iff.mp h
    have hdrop : key.drop idx = char :: key.drop (idx + 1) := by
      rw [← hget]; exact List.drop_eq_getElem_cons hlt
    rw [hdrop]
    simp only [getLoop, lookup]
    by_cases h1 : char < c
    · simp only [h1, if_true]; rw [ihl idx char h, hdrop]
    · by_cases h2 : char > c
      · simp only [h1, h2, if_true, if_false]; rw [ihh idx char h, hdrop]
      · simp only [h1, h2, if_false]
        by_cases h3 : idx = key.length - 1
        · have : key.drop (idx + 1) = [] := by
            apply List.drop_eq_nil_of_le; omega
          rw [if_pos h3, if_pos this]
        · have hlt1 : idx + 1 < key.length := by omega
          have hne : key.drop (idx + 1) ≠ [] := by
            intro hnil
            have := List.drop_eq_nil_iff.mp hnil
            omega
          rw [if_neg h3, if_neg hne, List.getElem?_eq_getElem hlt1]
          exact ihe (idx + 1) _ (List.getElem?_eq_getElem hlt1)

theorem Get_eq_lookup (t : tstNode V) (key : List Byte) :
    Get t key = some (lookup t key) := by
  unfold Get
  cases key with
  | nil => cases t <;> simp [lookup]
  | cons ch rest =>
    cases t with
    | nil => simp [lookup]
    | node lower higher equal c value =>
      have := getLoop_eq_lookup (ch :: rest) (node lower higher equal c value) 0 ch (by simp)
      simpa using this

theorem insertNil_eq_chain (key : List Byte) (value : Option V) :
    ∀ (dist index : Nat), index < key.length → dist = key.length - index →
      insertNil key value dist index = some (chain value (key.drop index)) := by
  intro dist
  induction dist with
  | zero => intro index h1 h2; omega
  | succ d ih =>
    intro index hlt hd
    have hdrop : key.drop index = key[index] :: key.drop (index + 1) :=
      List.drop_eq_getElem_cons hlt
    simp only [insertNil, List.getElem?_eq_getElem hlt]
    by_cases h3 : index = key.length - 1
    · have : key.drop (index + 1) = [] := by
        apply List.drop_eq_nil_of_le; omega
      rw [if_pos h3, hdrop, this, chain]
    · have hlt1 : index + 1 < key.length := by omega
      rw [if_neg h3, ih (index + 1) hlt1 (by omega), hdrop]
      have hdrop1 : key.drop (index + 1) = key[index + 1] :: key.drop (index + 1 + 1) :=
        List.drop_eq_getElem_cons hlt1
      rw [hdrop1]
      simp [chain]

theorem insert_eq_put (key : List Byte) (value : Option V) :
    ∀ (n : tstNode V) (index : Nat), index < key.length →
      insert n key index value = some (put n (key.drop index) value) := by
  intro n
  induction n with
  | nil =>
    intro index hlt
    simp only [insert, put]
    exact insertNil_eq_chain key value _ index hlt rfl
  | node lower higher equal c val ihl ihh ihe =>
    intro index hlt
    have hdrop : key.drop index = key[index] :: key.drop (index + 1) :=
      List.drop_eq_getElem_cons hlt
    simp only [insert, List.getElem?_eq_getElem hlt]
    rw [hdrop]
    simp only [put]
    by_cases h1 : key[index] < c
    · rw [if_pos h1, if_pos h1, ihl index hlt, hdrop]; rfl
    · by_cases h2 : key[index] > c
      · rw [if_neg h1, if_neg h1, if_pos h2, if_pos h2, ihh index hlt, hdrop]; rfl
      · rw [if_neg h1, if_neg h1, if_neg h2, if_neg h2]
        by_cases h3 : index = key.length - 1
        · have : key.drop (index + 1) = [] := by
            apply List.drop_eq_nil_of_le; omega
          rw [if_pos h3, if_pos this]
        · have hlt1 : index + 1 < key.length := by omega
          have hne : key.drop (index + 1) ≠ [] := by
            intro hnil
            have := List.drop_eq_nil_iff.mp hnil
            omega
          rw [if_neg h3, if_neg hne, ihe (index + 1) hlt1]; rfl

theorem Set_eq_setPure (t : tstNode V) (key : List Byte) (value : Option V) :
    Set t key value = some (setPure t key value) := by
  unfold Set setPure
  cases key with
  | nil => simp
  | cons ch rest =>
    have hlt : 0 < (ch :: rest).length := by simp
    cases t with
    | nil => simp [insert_eq_put (ch :: rest) value nil 0 hlt]
    | node lower higher equal c val =>
      simpa using insert_eq_put (ch :: rest) value (node lower higher equal c val) 0 hlt

/-! ### Reading after writing, on key suffixes -/

theorem byte_eq_of_not_lt {a b : Byte} (h1 : ¬ a < b) (h2 : ¬ a > b) : a = b :=
  Nat.le_antisymm (Nat.le_of_not_lt h2) (Nat.le_of_not_lt h1)

theorem lookup_chain_self (value : Option V) :
    ∀ (k : List Byte), k ≠ [] → lookup (chain value k) k = value := by
  intro k
  induction k with
  | nil => intro h; exact absurd rfl h
  | cons ch rest ih =>
    intro _
    cases rest with
    | nil => simp [chain, lookup]
    | cons ch1 rest1 =>
      have := ih (by simp)
      simp [chain, lookup, this]

theorem lookup_chain_other (value : Option V) :
    ∀ (k k1 : List Byte), k1 ≠ k → lookup (chain value k) k1 = none := by
  intro k
  induction k with
  | nil => intro k1 _; simp [chain, lookup]
  | cons ch rest ih =>
    intro k1 hne
    cases k1 with
    | nil => cases rest <;> simp [chain, lookup]
    | cons d rest1 =>
      cases rest with
      | nil =>
        simp only [chain, lookup]
        by_cases h1 : d < ch
        · simp [h1]
        · by_cases h2 : d > ch
          · simp [h1, h2]
          · have hd : d = ch := byte_eq_of_not_lt h1 h2
            subst hd
            have : rest1 ≠ [] := by
              intro h; apply hne; rw [h]
            simp [this]
      | cons ch1 rest2 =>
        simp only [chain, lookup]
        by_cases h1 : d < ch
        · simp [h1]
        · by_cases h2 : d > ch
          · simp [h1, h2]
          · have hd : d = ch := byte_eq_of_not_lt h1 h2
            subst hd
            rw [if_neg h1, if_neg h2]
            by_cases h3 : rest1 = []
            · rw [if_pos h3]
            · rw [if_neg h3]
              apply ih
              intro h; apply hne; rw [h]

theorem lookup_put_self :
    ∀ (t : tstNode V) (k : List Byte) (value : Option V), k ≠ [] →
      lookup (put t k value) k = value := by
  intro t
  induction t with
  | nil => intro k value hk; simpa [put] using lookup_chain_self value k hk
  | node lower higher equal c val ihl ihh ihe =>
    intro k value hk
    cases k with
    | nil => exact absurd rfl hk
    | cons ch rest =>
      simp only [put]
      by_cases h1 : ch < c
      · rw [if_pos h1]; simp only [lookup]; rw [if_pos h1]; exact ihl _ _ hk
      · by_cases h2 : ch > c
        · rw [if_neg h1, if_pos h2]; simp only [lookup]
          rw [if_neg h1, if_pos h2]; exact ihh _ _ hk
        · rw [if_neg h1, if_neg h2]
          by_cases h3 : rest = []
          · rw [if_pos h3]; simp only [lookup]; rw [if_neg h1, if_neg h2, if_pos h3]
          · rw [if_neg h3]; simp only [lookup]
            rw [if_neg h1, if_neg h2, if_neg h3]; exact ihe _ _ h3

theorem lookup_put_other :
    ∀ (t : tstNode V) (k k1 : List Byte) (value : Option V), k1 ≠ k →
      lookup (put t k value) k1 = lookup t k1 := by
  intro t
  induction t with
  | nil =>
    intro k k1 value hne
    simpa [put, lookup] using lookup_chain_other value k k1 hne
  | node lower higher equal c val ihl ihh ihe =>
    intro k k1 value hne
    cases k with
    | nil => simp [put]
    | cons ch rest =>
      cases k1 with
      | nil => simp only [put]; split_ifs <;> simp [lookup]
      | cons d rest1 =>
        simp only [put]
        by_cases h1 : ch < c
        · rw [if_pos h1]; simp only [lookup]
          by_cases g1 : d < c
          · rw [if_pos g1, if_pos g1]; exact ihl _ _ _ hne
          · rw [if_neg g1, if_neg g1]
        · by_cases h2 : ch > c
          · rw [if_neg h1, if_pos h2]; simp only [lookup]
            by_cases g1 : d < c
            · rw [if_pos g1, if_pos g1]
            · rw [if_neg g1, if_neg g1]
              by_cases g2 : d > c
              · rw [if_pos g2, if_pos g2]; exact ihh _ _ _ hne
              · rw [if_neg g2, if_neg g2]
          · have hc : ch = c := byte_eq_of_not_lt h1 h2
            subst hc
            rw [if_neg h1, if_neg h2]
            by_cases h3 : rest = []
            · rw [if_pos h3]; simp only [lookup]
              by_cases g1 : d < ch
              · rw [if_pos g1, if_pos g1]
              · rw [if_neg g1, if_neg g1]
                by_cases g2 : d > ch
                · rw [if_pos g2, if_pos g2]
                · rw [if_neg g2, if_neg g2]
                  have hd : d = ch := byte_eq_of_not_lt g1 g2
                  have g3 : rest1 ≠ [] := by
                    intro h; apply hne; rw [h, h3, hd]
                  rw [if_neg g3, if_neg g3]
            · rw [if_neg h3]; simp only [lookup]
              by_cases g1 : d < ch
              · rw [if_pos g1, if_pos g1]
              · rw [if_neg g1, if_neg g1]
                by_cases g2 : d > ch
                · rw [if_pos g2, if_pos g2]
                · rw [if_neg g2, if_neg g2]
                  have hd : d = ch := byte_eq_of_not_lt g1 g2
                  by_cases g3 : rest1 = []
                  · rw [if_pos g3, if_pos g3]
                  · rw [if_neg g3, if_neg g3]
                    apply ihe
                    intro h; apply hne; rw [h, hd]

theorem put_ne_nil (t : tstNode V) (k : List Byte) (value : Option V) (ht : t ≠ nil) :
    put t k value ≠ nil := by
  cases t with
  | nil => exact absurd rfl ht
  | node lower higher equal c val =>
    cases k with
    | nil => simp [put]
    | cons ch rest => simp only [put]; split_ifs <;> simp

theorem setPure_ne_nil (t : tstNode V) (k : List Byte) (value : Option V) (ht : t ≠ nil) :
    setPure t k value ≠ nil := by
  unfold setPure
  split_ifs
  · exact ht
  · cases t with
    | nil => exact absurd rfl ht
    | node lower higher equal c val => exact put_ne_nil _ _ _ (by simp)

theorem lookup_setPure_self (t : tstNode V) (k : List Byte) (value : Option V)
    (ht : t ≠ nil) (hk : k ≠ []) : lookup (setPure t k value) k = value := by
  unfold setPure
  rw [if_neg hk]
  cases t with
  | nil => exact absurd rfl ht
  | node lower higher equal c val => exact lookup_put_self _ _ _ hk

theorem lookup_setPure_other (t : tstNode V) (k k1 : List Byte) (value : Option V)
    (hne : k1 ≠ k) : lookup (setPure t k value) k1 = lookup t k1 := by
  unfold setPure
  split_ifs
  · rfl
  · cases t with
    | nil => rfl
    | node lower higher equal c val => exact lookup_put_other _ _ _ _ hne

theorem valuedKeys_chain (value : Option V) :
    ∀ (k key : List Byte), key ∈ valuedKeys (chain value k) → key = k := by
  intro k
  induction k with
  | nil => intro key h; simp [chain, valuedKeys] at h
  | cons ch rest ih =>
    intro key h
    cases rest with
    | nil =>
      cases value with
      | none => simp [chain, valuedKeys] at h
      | some x => simpa [chain, valuedKeys] using h
    | cons ch1 rest1 =>
      simp only [chain, valuedKeys, List.append_nil, List.nil_append, List.mem_map] at h
      obtain ⟨k0, hk0, rfl⟩ := h
      rw [ih k0 hk0]

theorem valuedKeys_put :
    ∀ (t : tstNode V) (k : List Byte) (value : Option V) (key : List Byte),
      key ∈ valuedKeys (put t k value) → key = k ∨ key ∈ valuedKeys t := by
  intro t
  induction t with
  | nil =>
    intro k value key h
    exact Or.inl (valuedKeys_chain value k key (by simpa [put] using h))
  | node lower higher equal c val ihl ihh ihe =>
    intro k value key h
    cases k with
    | nil => exact Or.inr (by simpa [put] using h)
    | cons ch rest =>
      simp only [put] at h
      by_cases h1 : ch < c
      · rw [if_pos h1] at h
        simp only [valuedKeys, List.mem_append] at h ⊢
        rcases h with ((h | h) | h) | h
        · rcases ihl _ _ _ h with h | h
          · exact Or.inl h
          · exact Or.inr (Or.inl (Or.inl (Or.inl h)))
        · exact Or.inr (Or.inl (Or.inl (Or.inr h)))
        · exact Or.inr (Or.inl (Or.inr h))
        · exact Or.inr (Or.inr h)
      · by_cases h2 : ch > c
        · rw [if_neg h1, if_pos h2] at h
          simp only [valuedKeys, List.mem_append] at h ⊢
          rcases h with ((h | h) | h) | h
          · exact Or.inr (Or.inl (Or.inl (Or.inl h)))
          · rcases ihh _ _ _ h with h | h
            · exact Or.inl h
            · exact Or.inr (Or.inl (Or.inl (Or.inr h)))
          · exact Or.inr (Or.inl (Or.inr h))
          · exact Or.inr (Or.inr h)
        · have hc : ch = c := byte_eq_of_not_lt h1 h2
          subst hc
          rw [if_neg h1, if_neg h2] at h
          by_cases h3 : rest = []
          · rw [if_pos h3] at h
            simp only [valuedKeys, List.mem_append] at h ⊢
            rcases h with ((h | h) | h) | h
            · exact Or.inr (Or.inl (Or.inl (Or.inl h)))
            · exact Or.inr (Or.inl (Or.inl (Or.inr h)))
            · left
              cases value with
              | none => simp at h
              | some x => simp at h; rw [h, h3]
            · exact Or.inr (Or.inr h)
          · rw [if_neg h3] at h
            simp only [valuedKeys, List.mem_append, List.mem_map] at h ⊢
            rcases h with ((h | h) | h) | h
            · exact Or.inr (Or.inl (Or.inl (Or.inl h)))
            · exact Or.inr (Or.inl (Or.inl (Or.inr h)))
            · exact Or.inr (Or.inl (Or.inr h))
            · obtain ⟨k0, hk0, rfl⟩ := h
              rcases ihe _ _ _ hk0 with h | h
              · exact Or.inl (by rw [h])
              · exact Or.inr (Or.inr ⟨k0, h, rfl⟩)

theorem valuedKeys_setPure (t : tstNode V) (k : List Byte) (value : Option V)
    (key : List Byte) (h : key ∈ valuedKeys (setPure t k value)) :
    key = k ∨ key ∈ valuedKeys t := by
  unfold setPure at h
  split_ifs at h
  · exact Or.inr h
  · cases t with
    | nil => exact Or.inr h
    | node lower higher equal c val => exact valuedKeys_put _ _ _ _ h

/-- On a nil receiver `Set` stores nothing: the node that `insert` allocates
is dropped, and `Get` on nil returns nil. -/
theorem Set_nil_receiver (k : List Byte) (v : Option V) :
    Set (nil : tstNode V) k v = some nil ∧ Get (nil : tstNode V) k = some none := by
  refine ⟨?_, ?_⟩
  · rw [Set_eq_setPure]
    unfold setPure
    split_ifs <;> rfl
  · rw [Get_eq_lookup]; rfl

/-- A sequence of `Set` calls never fails; it keeps a non-nil receiver non-nil,
leaves the lookups of the keys it was not given untouched, and gives a value
only to nodes at which one of its keys ends. -/
theorem setAll_spec :
    ∀ (ops : List (List Byte × Option V)) (t : tstNode V),
      ∃ t1, setAll t ops = some t1 ∧ (t ≠ nil → t1 ≠ nil) ∧
        (∀ k, k ∉ ops.map Prod.fst → lookup t1 k = lookup t k) ∧
        (∀ key, key ∈ valuedKeys t1 → key ∈ ops.map Prod.fst ∨ key ∈ valuedKeys t) := by
  intro ops
  induction ops with
  | nil => intro t; exact ⟨t, rfl, id, fun _ _ => rfl, fun _ h => Or.inr h⟩
  | cons op rest ih =>
    intro t
    obtain ⟨k0, v0⟩ := op
    obtain ⟨t1, h1, h2, h3, h4⟩ := ih (setPure t k0 v0)
    refine ⟨t1, ?_, ?_, ?_, ?_⟩
    · simp [setAll, Set_eq_setPure, h1]
    · intro ht; exact h2 (setPure_ne_nil _ _ _ ht)
    · intro k hk
      simp only [List.map_cons, List.mem_cons, not_or] at hk
      rw [h3 k hk.2, lookup_setPure_other _ _ _ _ hk.1]
    · intro key hkey
      simp only [List.map_cons, List.mem_cons]
      rcases h4 key hkey with h | h
      · exact Or.inl (Or.inr h)
      · rcases valuedKeys_setPure _ _ _ _ h with h | h
        · exact Or.inl (Or.inl h)
        · exact Or.inr h

end tstNode

open tstNode

/-! ## Claims on the ternary search tree -/

/-- C1. Round trip and last write wins: on every TST `t` (a non-nil node), in
particular on every tree reached from it, or from `newTST()`, by any sequence
`ops` of `Set` calls, `Set(k, v1)` with a non-empty key succeeds and `Get(k)`
then returns `v1`; a following `Set(k, v2)` makes `Get(k)` return `v2`. -/
theorem tst_set_get_roundtrip {V : Type} (ops : List (List Byte × Option V))
    (t : tstNode V) (k : List Byte) (v1 v2 : Option V) (ht : t ≠ nil) (hk : k ≠ []) :
    ∃ t0 t1 t2, setAll t ops = some t0 ∧
      Set t0 k v1 = some t1 ∧ Get t1 k = some v1 ∧
      Set t1 k v2 = some t2 ∧ Get t2 k = some v2 := by
  obtain ⟨t0, h0, hne, _, _⟩ := setAll_spec ops t
  have ht0 : t0 ≠ nil := hne ht
  have ht1 : setPure t0 k v1 ≠ nil := setPure_ne_nil _ _ _ ht0
  refine ⟨t0, setPure t0 k v1, setPure (setPure t0 k v1) k v2, h0,
    Set_eq_setPure _ _ _, ?_, Set_eq_setPure _ _ _, ?_⟩
  · rw [Get_eq_lookup, lookup_setPure_self _ _ _ ht0 hk]
  · rw [Get_eq_lookup, lookup_setPure_self _ _ _ ht1 hk]

/-- Witness of C1 on the tree `newTST()` after `Set("a", 1)`, key `"ab"`. -/
theorem tst_set_get_roundtrip_witness :
    (newTST : tstNode Nat) ≠ nil ∧ [97, 98] ≠ ([] : List Byte) ∧
    ∃ t0 t1 t2, setAll (newTST : tstNode Nat) [([97], some 1)] = some t0 ∧
      Set t0 [97, 98] (some 2) = some t1 ∧ Get t1 [97, 98] = some (some 2) ∧
      Set t1 [97, 98] (some 3) = some t2 ∧ Get t2 [97, 98] = some (some 3) :=
  ⟨by decide, by decide,
    tst_set_get_roundtrip [([97], some 1)] newTST [97, 98] (some 2) (some 3)
      (by decide) (by decide)⟩

/-- C2. `Set` changes the result of `Get` for no other key: for every tree
`t` (nil receiver included), every key `k`, value `v` and key `k1` different
from `k`, `Set(k, v)` succeeds and `Get(k1)` afterwards equals `Get(k1)` before. -/
theorem tst_set_frame {V : Type} (t : tstNode V) (k k1 : List Byte) (v : Option V)
    (hne : k1 ≠ k) :
    ∃ t1, Set t k v = some t1 ∧ Get t1 k1 = Get t k1 := by
  refine ⟨setPure t k v, Set_eq_setPure _ _ _, ?_⟩
  rw [Get_eq_lookup, Get_eq_lookup, lookup_setPure_other _ _ _ _ hne]

/-- Witness of C2: `Set("ab", 2)` on the tree holding `"a"`, read at the
proper prefix `"a"`. -/
theorem tst_set_frame_witness :
    ([97] : List Byte) ≠ [97, 98] ∧
    ∃ t1, Set (node nil (node nil nil nil 97 (some 1)) nil 0 none) [97, 98] (some 2) = some t1 ∧
      Get t1 [97] = Get (node nil (node nil nil nil 97 (some 1)) nil 0 none) [97] :=
  ⟨by decide, tst_set_frame _ [97, 98] [97] (some 2) (by decide)⟩

/-- C3. `Get` returns nil for a key that is not stored: `Get` on `newTST()`
returns nil for every key, and on the tree built from `newTST()` by the `Set`
calls `ops` it returns nil for every key `k` that is not among the keys of
`ops`; in that tree every node that carries a value is the end of a key of
`ops`. -/
theorem tst_get_absent {V : Type} (ops : List (List Byte × Option V)) (k : List Byte)
    (hk : k ∉ ops.map Prod.fst) :
    Get (newTST : tstNode V) k = some none ∧
    ∃ t, setAll (newTST : tstNode V) ops = some t ∧ Get t k = some none ∧
      ∀ key, key ∈ valuedKeys t → key ∈ ops.map Prod.fst := by
  have hnew : ∀ k : List Byte, lookup (newTST : tstNode V) k = none := by
    intro k
    cases k with
    | nil => rfl
    | cons ch rest =>
      simp only [newTST, lookup]
      split_ifs <;> rfl
  obtain ⟨t, h0, _, h3, h4⟩ := setAll_spec ops (newTST : tstNode V)
  refine ⟨by rw [Get_eq_lookup, hnew], t, h0, ?_, ?_⟩
  · rw [Get_eq_lookup, h3 k hk, hnew]
  · intro key hkey
    rcases h4 key hkey with h | h
    · exact h
    · simp [newTST, valuedKeys] at h

/-- Witness of C3: after `Set("ab", 1)` the proper prefix `"a"` reads nil. -/
theorem tst_get_absent_witness :
    ([97] : List Byte) ∉ [(([97, 98] : List Byte), some 1)].map Prod.fst ∧
    (Get (newTST : tstNode Nat) [97] = some none ∧
    ∃ t, setAll (newTST : tstNode Nat) [([97, 98], some 1)] = some t ∧
      Get t [97] = some none ∧
      ∀ key, key ∈ valuedKeys t → key ∈ [(([97, 98] : List Byte), some 1)].map Prod.fst) :=
  ⟨by decide, tst_get_absent [([97, 98], some 1)] [97] (by decide)⟩

/-! ## Claims on path validation and registration -/

theorem splitSlash_ne_nil (l : List Byte) : splitSlash l ≠ [] := by
  cases l with
  | nil => simp [splitSlash]
  | cons c rest =>
    simp only [splitSlash]
    split_ifs
    · simp
    · split <;> simp

theorem splitSlash_append_slash (a b : List Byte) :
    splitSlash (a ++ slash :: b) = splitSlash a ++ splitSlash b := by
  induction a with
  | nil => simp [splitSlash]
  | cons c a ih =>
    have hstep : splitSlash (c :: (a ++ slash :: b)) =
        if c = slash then [] :: splitSlash (a ++ slash :: b)
        else
          match splitSlash (a ++ slash :: b) with
          | [] => [[c]]
          | seg :: segs => (c :: seg) :: segs := rfl
    have hstep1 : splitSlash (c :: a) =
        if c = slash then [] :: splitSlash a
        else
          match splitSlash a with
          | [] => [[c]]
          | seg :: segs => (c :: seg) :: segs := rfl
    rw [List.cons_append, hstep, hstep1, ih]
    by_cases hc : c = slash
    · rw [if_pos hc, if_pos hc]; rfl
    · rw [if_neg hc, if_neg hc]
      cases hsa : splitSlash a with
      | nil => exact absurd hsa (splitSlash_ne_nil a)
      | cons seg segs => rfl

theorem validateRoutePath_of_segments (path : List Byte) (segs : List (List Byte))
    (h : pathSegments path = .ok segs) :
    validateRoutePath path =
      if segs.dropLast.any (fun seg => seg = wildcardMarker) then some .WildcardNotTerminal
      else none := by
  simp [validateRoutePath, h]

/-- C4. Path validation rejects the empty string (`EmptyPath`) and every
non-empty path whose first byte is not `/` (`MissingLeadingSlash`); `"/user"`
and `"/admin/"` are accepted. -/
theorem validateRoutePath_rejects_no_leading_slash (p : List Byte)
    (h : p.head? ≠ some slash) :
    validateRoutePath p = some (if p = [] then .EmptyPath else .MissingLeadingSlash) ∧
    validateRoutePath (str "/user") = none ∧ validateRoutePath (str "/admin/") = none := by
  refine ⟨?_, by decide, by decide⟩
  cases p with
  | nil => rfl
  | cons c rest =>
    have hc : c ≠ slash := by
      intro hc; apply h; simp [hc]
    simp [validateRoutePath, pathSegments, hc]

/-- Witness of C4 on the paths `""`, `"user"` and `"invalid Path"` of the tests. -/
theorem validateRoutePath_rejects_no_leading_slash_witness :
    validateRoutePath (str "") = some .EmptyPath ∧
    validateRoutePath (str "user") = some .MissingLeadingSlash ∧
    validateRoutePath (str "invalid Path") = some .MissingLeadingSlash :=
  ⟨(validateRoutePath_rejects_no_leading_slash (str "") (by decide)).1,
   (validateRoutePath_rejects_no_leading_slash (str "user") (by decide)).1,
   (validateRoutePath_rejects_no_leading_slash (str "invalid Path") (by decide)).1⟩

/-- Counterexample to C5 as stated: `"/*/*"` and `"a/*"` end in `"/*"` and are
rejected, the first for its earlier wildcard segment, the second for its
missing leading slash. -/
theorem validateRoutePath_wildcard_suffix_counterexample :
    (str "/*" <:+ str "/*/*" ∧ validateRoutePath (str "/*/*") = some .WildcardNotTerminal) ∧
    (str "/*" <:+ str "a/*" ∧ validateRoutePath (str "a/*") = some .MissingLeadingSlash) := by
  decide

/-- C5, amended. Every path with a wildcard segment `*` that is not its final
segment is rejected, with `WildcardNotTerminal` when it starts with `/`; every
path that starts with `/`, ends in `"/*"` and has no wildcard segment before
the final one is accepted, and its final segment is the wildcard. -/
theorem validateRoutePath_wildcard_position (p : List Byte) :
    (wildcardMarker ∈ (splitSlash p).dropLast →
      validateRoutePath p ≠ none ∧
      (p.head? = some slash → validateRoutePath p = some .WildcardNotTerminal)) ∧
    (∀ segs, pathSegments p = .ok segs → str "/*" <:+ p →
      (∀ seg ∈ segs.dropLast, seg ≠ wildcardMarker) →
      validateRoutePath p = none ∧ segs.getLast? = some wildcardMarker) := by
  constructor
  · intro hw
    cases p with
    | nil => simp [splitSlash] at hw
    | cons c rest =>
      by_cases hc : c = slash
      · subst hc
        have hsegs : pathSegments (slash :: rest) = .ok (splitSlash rest) := by
          simp [pathSegments]
        have hmem : wildcardMarker ∈ (splitSlash rest).dropLast := by
          have hsp : splitSlash (slash :: rest) = [] :: splitSlash rest := by
            simp [splitSlash]
          rw [hsp] at hw
          cases hr : splitSlash rest with
          | nil => exact absurd hr (splitSlash_ne_nil rest)
          | cons seg segs =>
            rw [hr, List.dropLast_cons₂] at hw
            simp only [List.mem_cons] at hw
            rcases hw with hw | hw
            · exact absurd hw (by decide)
            · exact hw
        have hany : (splitSlash rest).dropLast.any (fun seg => seg = wildcardMarker) = true := by
          simp only [List.any_eq_true, decide_eq_true_eq]
          exact ⟨wildcardMarker, hmem, rfl⟩
        have hv := validateRoutePath_of_segments _ _ hsegs
        rw [if_pos hany] at hv
        exact ⟨by rw [hv]; simp, fun _ => hv⟩
      · have hv : validateRoutePath (c :: rest) = some .MissingLeadingSlash := by
          simp [validateRoutePath, pathSegments, hc]
        exact ⟨by rw [hv]; simp, fun hh => absurd (by simpa using hh) hc⟩
  · intro segs hsegs hsuf hno
    have hv := validateRoutePath_of_segments _ _ hsegs
    have hany : ¬ (segs.dropLast.any (fun seg => seg = wildcardMarker) = true) := by
      simp only [List.any_eq_true, decide_eq_true_eq, not_exists, not_and]
      intro seg hseg; exact hno seg hseg
    rw [if_neg hany] at hv
    refine ⟨hv, ?_⟩
    cases p with
    | nil => simp [pathSegments] at hsegs
    | cons c rest =>
      by_cases hc : c = slash
      · subst hc
        have hs : segs = splitSlash rest := by
          simp only [pathSegments, if_true] at hsegs
          exact (Except.ok.inj hsegs).symm
        subst hs
        obtain ⟨pre, hpre⟩ := hsuf
        have hstr : str "/*" = [slash, 42] := by decide
        rw [hstr] at hpre
        cases pre with
        | nil =>
          have hr : rest = [42] := by
            simp only [List.nil_append, List.cons.injEq, true_and] at hpre
            exact hpre.symm
          subst hr
          decide
        | cons d pre1 =>
          have hr : rest = pre1 ++ slash :: [42] := by
            simp only [List.cons_append, List.cons.injEq] at hpre
            exact hpre.2.symm
          rw [hr, splitSlash_append_slash]
          have : splitSlash [42] = [wildcardMarker] := by decide
          rw [this]
          simp
      · simp [pathSegments, hc] at hsegs

/-- Witness of C5, amended: `"/user/*/get"` is rejected, `"/user/*"` is accepted. -/
theorem validateRoutePath_wildcard_position_witness :
    (validateRoutePath (str "/user/*/get") ≠ none ∧
      (((str "/user/*/get").head? = some slash) →
        validateRoutePath (str "/user/*/get") = some .WildcardNotTerminal)) ∧
    (validateRoutePath (str "/user/*") = none ∧
      [str "user", str "*"].getLast? = some wildcardMarker) :=
  ⟨(validateRoutePath_wildcard_position (str "/user/*/get")).1 (by decide),
   (validateRoutePath_wildcard_position (str "/user/*")).2 [str "user", str "*"]
      (by decide) (by decide) (by decide)⟩

theorem registerAll_length {H : Type} :
    ∀ (calls : List (List Byte × List Byte × Option H)) (gb : gearbox H),
      (registerAll gb calls).1.registeredRoutes.length =
        gb.registeredRoutes.length + (registerAll gb calls).2 := by
  intro calls
  induction calls with
  | nil => intro gb; rfl
  | cons call calls ih =>
    intro gb
    obtain ⟨m, p, h⟩ := call
    cases h with
    | none => simpa [registerAll, registerRoute] using ih gb
    | some h =>
      cases hv : validateRoutePath p with
      | some e => simpa [registerAll, registerRoute, hv] using ih gb
      | none =>
        simp only [registerAll, registerRoute, hv]
        rw [ih]
        simp
        omega

/-- C6. Registration is atomic on failure. `registerRoute` with a nil handler
or with a path that `validateRoutePath` rejects returns an error and leaves
the router, and so its list of routes, unchanged; a `registerRoute` that
returns no error has appended exactly the one entry to the list and changed
nothing else; after any sequence of `registerRoute` calls the number of routes
has grown by the number of calls that returned no error (so from an empty
table the two numbers are equal); `registerFallback(nil)` returns an error
and changes nothing. -/
theorem registerRoute_atomic {H : Type} (gb : gearbox H) (m p : List Byte) (h : Option H)
    (calls : List (List Byte × List Byte × Option H)) :
    (h = none ∨ validateRoutePath p ≠ none →
      ∃ e, registerRoute gb m p h = (gb, some e)) ∧
    (∀ gb1, registerRoute gb m p h = (gb1, none) →
      gb1.registeredRoutes = gb.registeredRoutes ++ [⟨m, p, h⟩] ∧
      gb1.registeredFallback = gb.registeredFallback ∧ gb1.routingTree = gb.routingTree ∧
      h ≠ none ∧ validateRoutePath p = none) ∧
    ((registerAll gb calls).1.registeredRoutes.length =
      gb.registeredRoutes.length + (registerAll gb calls).2) ∧
    ((registerAll gearbox.new calls).1.registeredRoutes.length =
      (registerAll gearbox.new calls).2) ∧
    registerFallback gb none = (gb, some .NilHandler) := by
  refine ⟨?_, ?_, registerAll_length calls gb, ?_, rfl⟩
  · intro hbad
    cases h with
    | none => exact ⟨_, rfl⟩
    | some h0 =>
      cases hv : validateRoutePath p with
      | none => rcases hbad with hbad | hbad <;> simp_all
      | some e => exact ⟨e, by simp [registerRoute, hv]⟩
  · intro gb1 hreg
    cases h with
    | none => simp [registerRoute] at hreg
    | some h0 =>
      cases hv : validateRoutePath p with
      | some e => simp [registerRoute, hv] at hreg
      | none =>
        simp only [registerRoute, hv, Prod.mk.injEq, and_true] at hreg
        subst hreg
        simp
  · have := registerAll_length calls (gearbox.new : gearbox H)
    simpa [gearbox.new] using this

/-- Witness of C6: the last two calls of `TestRegisterRoute`, a nil handler on
a valid path and on a path with a wildcard in the middle. -/
theorem registerRoute_atomic_witness :
    (∃ e, registerRoute (gearbox.new : gearbox Nat) (str "DELETE") (str "/account/delete")
      none = (gearbox.new, some e)) ∧
    (∃ e, registerRoute (gearbox.new : gearbox Nat) (str "GET") (str "/account/*/getAccount")
      (some 1) = (gearbox.new, some e)) :=
  ⟨(registerRoute_atomic gearbox.new (str "DELETE") (str "/account/delete") none []).1
      (Or.inl rfl),
   (registerRoute_atomic gearbox.new (str "GET") (str "/account/*/getAccount") (some 1) []).1
      (Or.inr (by decide))⟩

/-! ## The routing tree: slots, insertion and matching -/

namespace literalChildren

variable {V : Type}

/-- The lookup of a literal child never indexes out of range. -/
theorem get_eq_lookup (c : literalChildren V) (seg : List Byte) :
    c.get seg = some (c.lookup seg) := by
  cases seg with
  | nil => rfl
  | cons ch rest => exact tstNode.Get_eq_lookup _ _

end literalChildren

namespace routeNode

variable {H : Type}

end routeNode

open routeNode

theorem lookup_newTST {V : Type} (k : List Byte) :
    tstNode.lookup (tstNode.newTST : tstNode V) k = none := by
  cases k with
  | nil => rfl
  | cons ch rest =>
    simp only [tstNode.newTST, tstNode.lookup]
    split_ifs <;> rfl

theorem matchSegs_eq_matchPure {H : Type} :
    ∀ (segs : List (List Byte)) (n : routeNode H), matchSegs segs n = .ok (matchPure segs n) := by
  intro segs
  induction segs with
  | nil =>
    intro n
    cases n with
    | mk name kd handler children p w =>
      cases handler <;> rfl
  | cons seg rest ih =>
    intro n
    cases n with
    | mk name kd handler children p w =>
      simp only [matchSegs, matchPure, literalChildren.get_eq_lookup, childAt,
        routeNode.children, routeNode.paramChild]
      cases hl : children.lookup seg with
      | none =>
        cases p with
        | none => rfl
        | some pc =>
          simp only [ih pc]
          cases matchPure rest pc <;> rfl
      | some lc =>
        simp only [ih lc]
        cases matchPure rest lc with
        | some x => rfl
        | none =>
          cases p with
          | none => rfl
          | some pc =>
            simp only [ih pc]
            cases matchPure rest pc <;> rfl

theorem wildcardHandler_createRouteNode {H : Type} (name : List Byte) (kd : NodeKind) :
    (createRouteNode name kd : routeNode H).wildcardHandler = none := rfl

namespace tstNode

variable {V : Type}

theorem ordered_node_iff (lower higher equal : tstNode V) (c : Byte) (value : Option V) :
    ordered (node lower higher equal c value) = true ↔
      (∀ x ∈ siblingChars lower, x < c) ∧ (∀ x ∈ siblingChars higher, c < x) ∧
      ordered lower = true ∧ ordered higher = true ∧ ordered equal = true := by
  simp only [ordered, Bool.and_eq_true, List.all_eq_true, decide_eq_true_eq]
  constructor
  · rintro ⟨⟨⟨⟨h1, h2⟩, h3⟩, h4⟩, h5⟩
    exact ⟨h1, h2, h3, h4, h5⟩
  · rintro ⟨h1, h2, h3, h4, h5⟩
    exact ⟨⟨⟨⟨h1, h2⟩, h3⟩, h4⟩, h5⟩

theorem siblingChars_chain (value : Option V) (ch : Byte) (rest : List Byte) :
    siblingChars (chain value (ch :: rest)) = [ch] := by
  cases rest <;> simp [chain, siblingChars]

theorem ordered_chain (value : Option V) : ∀ k : List Byte, ordered (chain value k) = true := by
  intro k
  induction k with
  | nil => rfl
  | cons ch rest ih =>
    cases rest with
    | nil => simp [chain, ordered, siblingChars]
    | cons ch1 rest1 =>
      have hstep : chain value (ch :: ch1 :: rest1) =
          node nil nil (chain value (ch1 :: rest1)) ch none := rfl
      rw [hstep, ordered_node_iff]
      exact ⟨by simp [siblingChars], by simp [siblingChars], rfl, rfl, ih⟩

theorem siblingChars_put :
    ∀ (t : tstNode V) (ch : Byte) (rest : List Byte) (value : Option V) (x : Byte),
      x ∈ siblingChars (put t (ch :: rest) value) → x = ch ∨ x ∈ siblingChars t := by
  intro t
  induction t with
  | nil =>
    intro ch rest value x hx
    simp only [put, siblingChars_chain, List.mem_singleton] at hx
    exact Or.inl hx
  | node lower higher equal c val ihl ihh _ =>
    intro ch rest value x hx
    simp only [put] at hx
    by_cases h1 : ch < c
    · rw [if_pos h1] at hx
      simp only [siblingChars, List.mem_cons, List.mem_append] at hx ⊢
      rcases hx with hx | hx | hx
      · exact Or.inr (Or.inl hx)
      · rcases ihl _ _ _ _ hx with h | h
        · exact Or.inl h
        · exact Or.inr (Or.inr (Or.inl h))
      · exact Or.inr (Or.inr (Or.inr hx))
    · by_cases h2 : ch > c
      · rw [if_neg h1, if_pos h2] at hx
        simp only [siblingChars, List.mem_cons, List.mem_append] at hx ⊢
        rcases hx with hx | hx | hx
        · exact Or.inr (Or.inl hx)
        · exact Or.inr (Or.inr (Or.inl hx))
        · rcases ihh _ _ _ _ hx with h | h
          · exact Or.inl h
          · exact Or.inr (Or.inr (Or.inr h))
      · rw [if_neg h1, if_neg h2] at hx
        by_cases h3 : rest = []
        · rw [if_pos h3] at hx
          exact Or.inr hx
        · rw [if_neg h3] at hx
          exact Or.inr hx

/-- Inserting a key keeps the ordering. -/
theorem ordered_put :
    ∀ (t : tstNode V) (k : List Byte) (value : Option V),
      ordered t = true → ordered (put t k value) = true := by
  intro t
  induction t with
  | nil => intro k value _; exact ordered_chain value k
  | node lower higher equal c val ihl ihh ihe =>
    intro k value ho
    obtain ⟨hlo, hhi, ol, oh, oe⟩ := (ordered_node_iff _ _ _ _ _).mp ho
    cases k with
    | nil => exact ho
    | cons ch rest =>
      simp only [put]
      by_cases h1 : ch < c
      · rw [if_pos h1, ordered_node_iff]
        refine ⟨?_, hhi, ihl _ _ ol, oh, oe⟩
        intro x hx
        rcases siblingChars_put _ _ _ _ _ hx with h | h
        · rw [h]; exact h1
        · exact hlo x h
      · by_cases h2 : ch > c
        · rw [if_neg h1, if_pos h2, ordered_node_iff]
          refine ⟨hlo, ?_, ol, ihh _ _ oh, oe⟩
          intro x hx
          rcases siblingChars_put _ _ _ _ _ hx with h | h
          · rw [h]; exact h2
          · exact hhi x h
        · rw [if_neg h1, if_neg h2]
          by_cases h3 : rest = []
          · rw [if_pos h3, ordered_node_iff]
            exact ⟨hlo, hhi, ol, oh, oe⟩
          · rw [if_neg h3, ordered_node_iff]
            exact ⟨hlo, hhi, ol, oh, ihe _ _ oe⟩

theorem ordered_setPure (t : tstNode V) (k : List Byte) (value : Option V)
    (ho : ordered t = true) : ordered (setPure t k value) = true := by
  unfold setPure
  split_ifs
  · exact ho
  · cases t with
    | nil => rfl
    | node lower higher equal c val => exact ordered_put _ _ _ ho

theorem follow_nil (t : tstNode V) : follow t [] = t := by
  cases t <;> rfl

theorem ordered_follow :
    ∀ (pos : List Link) (t : tstNode V), ordered t = true → ordered (follow t pos) = true := by
  intro pos
  induction pos with
  | nil => intro t ho; rw [follow_nil]; exact ho
  | cons l ls ih =>
    intro t ho
    cases t with
    | nil => rfl
    | node lower higher equal c val =>
      obtain ⟨_, _, ol, oh, oe⟩ := (ordered_node_iff _ _ _ _ _).mp ho
      cases l
      · exact ih lower ol
      · exact ih higher oh
      · exact ih equal oe

theorem ordered_setAll :
    ∀ (ops : List (List Byte × Option V)) (t : tstNode V), ordered t = true →
      ∃ t1, setAll t ops = some t1 ∧ ordered t1 = true := by
  intro ops
  induction ops with
  | nil => intro t ho; exact ⟨t, rfl, ho⟩
  | cons op rest ih =>
    intro t ho
    obtain ⟨k0, v0⟩ := op
    obtain ⟨t1, h1, h2⟩ := ih (setPure t k0 v0) (ordered_setPure _ _ _ ho)
    exact ⟨t1, by simp [setAll, Set_eq_setPure, h1], h2⟩

/-! ### Positions -/

theorem nodeAt_nil (p : List Link) : nodeAt (nil : tstNode V) p = none := by
  cases p <;> rfl

theorem nodeAt_node_nil (lower higher equal : tstNode V) (c : Byte) (value : Option V) :
    nodeAt (node lower higher equal c value) [] = some (c, value) := rfl

theorem nodeAt_node_lower (lower higher equal : tstNode V) (c : Byte) (value : Option V)
    (ps : List Link) :
    nodeAt (node lower higher equal c value) (Link.lower :: ps) = nodeAt lower ps := rfl

theorem nodeAt_node_higher (lower higher equal : tstNode V) (c : Byte) (value : Option V)
    (ps : List Link) :
    nodeAt (node lower higher equal c value) (Link.higher :: ps) = nodeAt higher ps := rfl

theorem nodeAt_node_equal (lower higher equal : tstNode V) (c : Byte) (value : Option V)
    (ps : List Link) :
    nodeAt (node lower higher equal c value) (Link.equal :: ps) = nodeAt equal ps := rfl

theorem size_setValueAt :
    ∀ (t : tstNode V) (pos : List Link) (v : Option V), size (setValueAt t pos v) = size t := by
  intro t
  induction t with
  | nil => intro pos v; cases pos <;> rfl
  | node lower higher equal c value ihl ihh ihe =>
    intro pos v
    cases pos with
    | nil => rfl
    | cons l ls =>
      cases l
      · simp only [setValueAt, size, ihl]
      · simp only [setValueAt, size, ihh]
      · simp only [setValueAt, size, ihe]

theorem nodeAt_setValueAt_ne :
    ∀ (p : List Link) (t : tstNode V) (pos : List Link) (v : Option V), p ≠ pos →
      nodeAt (setValueAt t pos v) p = nodeAt t p := by
  intro p
  induction p with
  | nil =>
    intro t pos v hne
    cases t with
    | nil => cases pos <;> rfl
    | node lower higher equal c value =>
      cases pos with
      | nil => exact absurd rfl hne
      | cons l ls => cases l <;> rfl
  | cons l ps ih =>
    intro t pos v hne
    cases t with
    | nil => cases pos <;> rfl
    | node lower higher equal c value =>
      cases pos with
      | nil => cases l <;> rfl
      | cons l1 ls =>
        cases l <;> cases l1 <;> try rfl
        · exact ih lower ls v (fun h => hne (by rw [h]))
        · exact ih higher ls v (fun h => hne (by rw [h]))
        · exact ih equal ls v (fun h => hne (by rw [h]))

theorem nodeAt_setValueAt_self :
    ∀ (pos : List Link) (t : tstNode V) (v : Option V) (c : Byte) (old : Option V),
      nodeAt t pos = some (c, old) → nodeAt (setValueAt t pos v) pos = some (c, v) := by
  intro pos
  induction pos with
  | nil =>
    intro t v c old h
    cases t with
    | nil => cases h
    | node lower higher equal c0 value =>
      rw [nodeAt_node_nil] at h
      have hc : c0 = c := (Prod.mk.inj (Option.some.inj h)).1
      rw [← hc]; rfl
  | cons l ls ih =>
    intro t v c old h
    cases t with
    | nil => rw [nodeAt_nil] at h; cases h
    | node lower higher equal c0 value =>
      cases l
      · exact ih lower v c old h
      · exact ih higher v c old h
      · exact ih equal v c old h

/-- A key whose path exists ends at a node. -/
theorem nodeAt_endOf :
    ∀ (t : tstNode V) (k : List Byte) (pos : List Link), endOf t k = some pos →
      ∃ c old, nodeAt t pos = some (c, old) := by
  intro t
  induction t with
  | nil => intro k pos h; cases k <;> cases h
  | node lower higher equal c value ihl ihh ihe =>
    intro k pos h
    cases k with
    | nil => cases h
    | cons ch rest =>
      simp only [endOf] at h
      by_cases h1 : ch < c
      · rw [if_pos h1] at h
        cases hl : endOf lower (ch :: rest) with
        | none => rw [hl] at h; cases h
        | some p1 =>
          rw [hl] at h
          have : pos = Link.lower :: p1 := (Option.some.inj h).symm
          rw [this, nodeAt_node_lower]
          exact ihl _ _ hl
      · by_cases h2 : ch > c
        · rw [if_neg h1, if_pos h2] at h
          cases hl : endOf higher (ch :: rest) with
          | none => rw [hl] at h; cases h
          | some p1 =>
            rw [hl] at h
            have : pos = Link.higher :: p1 := (Option.some.inj h).symm
            rw [this, nodeAt_node_higher]
            exact ihh _ _ hl
        · rw [if_neg h1, if_neg h2] at h
          by_cases h3 : rest = []
          · rw [if_pos h3] at h
            have : pos = [] := (Option.some.inj h).symm
            rw [this]
            exact ⟨c, value, rfl⟩
          · rw [if_neg h3] at h
            cases hl : endOf equal rest with
            | none => rw [hl] at h; cases h
            | some p1 =>
              rw [hl] at h
              have : pos = Link.equal :: p1 := (Option.some.inj h).symm
              rw [this, nodeAt_node_equal]
              exact ihe _ _ hl

/-- Inserting a key whose path exists only replaces the value at its end. -/
theorem put_eq_setValueAt :
    ∀ (t : tstNode V) (k : List Byte) (pos : List Link) (v : Option V),
      endOf t k = some pos → put t k v = setValueAt t pos v := by
  intro t
  induction t with
  | nil => intro k pos v h; cases k <;> cases h
  | node lower higher equal c value ihl ihh ihe =>
    intro k pos v h
    cases k with
    | nil => cases h
    | cons ch rest =>
      simp only [endOf] at h
      simp only [put]
      by_cases h1 : ch < c
      · rw [if_pos h1] at h ⊢
        cases hl : endOf lower (ch :: rest) with
        | none => rw [hl] at h; cases h
        | some p1 =>
          rw [hl] at h
          have : pos = Link.lower :: p1 := (Option.some.inj h).symm
          rw [this, ihl _ _ v hl]; rfl
      · by_cases h2 : ch > c
        · rw [if_neg h1, if_pos h2] at h ⊢
          cases hl : endOf higher (ch :: rest) with
          | none => rw [hl] at h; cases h
          | some p1 =>
            rw [hl] at h
            have : pos = Link.higher :: p1 := (Option.some.inj h).symm
            rw [this, ihh _ _ v hl]; rfl
        · rw [if_neg h1, if_neg h2] at h ⊢
          by_cases h3 : rest = []
          · rw [if_pos h3] at h ⊢
            have : pos = [] := (Option.some.inj h).symm
            rw [this]; rfl
          · rw [if_neg h3] at h ⊢
            cases hl : endOf equal rest with
            | none => rw [hl] at h; cases h
            | some p1 =>
              rw [hl] at h
              have : pos = Link.equal :: p1 := (Option.some.inj h).symm
              rw [this, ihe _ _ v hl]; rfl

theorem endOf_ne_nil {t : tstNode V} {k : List Byte} {pos : List Link}
    (h : endOf t k = some pos) : t ≠ nil ∧ k ≠ [] := by
  cases t with
  | nil => cases k <;> cases h
  | node lower higher equal c value =>
    cases k with
    | nil => cases h
    | cons ch rest => exact ⟨by simp, by simp⟩

theorem endOf_chain (value : Option V) :
    ∀ k : List Byte, k ≠ [] → ∃ pos, endOf (chain value k) k = some pos := by
  intro k
  induction k with
  | nil => intro h; exact absurd rfl h
  | cons ch rest ih =>
    intro _
    cases rest with
    | nil => exact ⟨[], by simp [chain, endOf]⟩
    | cons ch1 rest1 =>
      obtain ⟨p1, hp1⟩ := ih (by simp)
      refine ⟨Link.equal :: p1, ?_⟩
      have hstep : chain value (ch :: ch1 :: rest1) =
          node nil nil (chain value (ch1 :: rest1)) ch none := rfl
      rw [hstep]
      simp only [endOf, lt_irrefl, gt_iff_lt, if_false, hp1]
      simp

/-- After a key has been inserted its path exists. -/
theorem endOf_put_self :
    ∀ (t : tstNode V) (k : List Byte) (v : Option V), k ≠ [] →
      ∃ pos, endOf (put t k v) k = some pos := by
  intro t
  induction t with
  | nil => intro k v hk; simpa [put] using endOf_chain v k hk
  | node lower higher equal c value ihl ihh ihe =>
    intro k v hk
    cases k with
    | nil => exact absurd rfl hk
    | cons ch rest =>
      simp only [put]
      by_cases h1 : ch < c
      · obtain ⟨p1, hp1⟩ := ihl (ch :: rest) v hk
        rw [if_pos h1]
        exact ⟨Link.lower :: p1, by simp only [endOf, if_pos h1, hp1]; rfl⟩
      · by_cases h2 : ch > c
        · obtain ⟨p1, hp1⟩ := ihh (ch :: rest) v hk
          rw [if_neg h1, if_pos h2]
          exact ⟨Link.higher :: p1, by simp only [endOf, if_neg h1, if_pos h2, hp1]; rfl⟩
        · rw [if_neg h1, if_neg h2]
          by_cases h3 : rest = []
          · rw [if_pos h3]
            exact ⟨[], by simp only [endOf, if_neg h1, if_neg h2, if_pos h3]⟩
          · obtain ⟨p1, hp1⟩ := ihe rest v h3
            rw [if_neg h3]
            exact ⟨Link.equal :: p1,
              by simp only [endOf, if_neg h1, if_neg h2, if_neg h3, hp1]; rfl⟩

/-- The end of a key stays where it is when any key is inserted. -/
theorem endOf_put_other :
    ∀ (t : tstNode V) (k k1 : List Byte) (v : Option V) (pos : List Link),
      endOf t k = some pos → endOf (put t k1 v) k = some pos := by
  intro t
  induction t with
  | nil => intro k k1 v pos h; cases k <;> cases h
  | node lower higher equal c value ihl ihh ihe =>
    intro k k1 v pos h
    cases k with
    | nil => cases h
    | cons ch rest =>
      cases k1 with
      | nil => exact h
      | cons d rest1 =>
        simp only [put]
        by_cases g1 : d < c
        · rw [if_pos g1]
          simp only [endOf] at h ⊢
          by_cases h1 : ch < c
          · rw [if_pos h1] at h ⊢
            cases hl : endOf lower (ch :: rest) with
            | none => rw [hl] at h; cases h
            | some p1 => rw [hl] at h; rw [ihl _ _ v p1 hl]; exact h
          · rw [if_neg h1] at h ⊢; exact h
        · by_cases g2 : d > c
          · rw [if_neg g1, if_pos g2]
            simp only [endOf] at h ⊢
            by_cases h1 : ch < c
            · rw [if_pos h1] at h ⊢; exact h
            · by_cases h2 : ch > c
              · rw [if_neg h1, if_pos h2] at h ⊢
                cases hl : endOf higher (ch :: rest) with
                | none => rw [hl] at h; cases h
                | some p1 => rw [hl] at h; rw [ihh _ _ v p1 hl]; exact h
              · rw [if_neg h1, if_neg h2] at h ⊢; exact h
          · rw [if_neg g1, if_neg g2]
            by_cases g3 : rest1 = []
            · rw [if_pos g3]; exact h
            · rw [if_neg g3]
              simp only [endOf] at h ⊢
              by_cases h1 : ch < c
              · rw [if_pos h1] at h ⊢; exact h
              · by_cases h2 : ch > c
                · rw [if_neg h1, if_pos h2] at h ⊢; exact h
                · rw [if_neg h1, if_neg h2] at h ⊢
                  by_cases h3 : rest = []
                  · rw [if_pos h3] at h ⊢; exact h
                  · rw [if_neg h3] at h ⊢
                    cases hl : endOf equal rest with
                    | none => rw [hl] at h; cases h
                    | some p1 => rw [hl] at h; rw [ihe _ _ v p1 hl]; exact h

theorem put_chain_self (value : Option V) :
    ∀ k : List Byte, put (chain value k) k value = chain value k := by
  intro k
  induction k with
  | nil => rfl
  | cons ch rest ih =>
    cases rest with
    | nil => simp [chain, put]
    | cons ch1 rest1 =>
      have hstep : chain value (ch :: ch1 :: rest1) =
          node nil nil (chain value (ch1 :: rest1)) ch none := rfl
      rw [hstep]
      simp only [put, lt_irrefl, gt_iff_lt, if_false]
      rw [if_neg (by simp), ih]

/-- Inserting the same key and value a second time changes nothing. -/
theorem put_idem :
    ∀ (t : tstNode V) (k : List Byte) (v : Option V), put (put t k v) k v = put t k v := by
  intro t
  induction t with
  | nil => intro k v; simpa [put] using put_chain_self v k
  | node lower higher equal c value ihl ihh ihe =>
    intro k v
    cases k with
    | nil => rfl
    | cons ch rest =>
      simp only [put]
      by_cases h1 : ch < c
      · rw [if_pos h1]; simp only [put]; rw [if_pos h1, ihl]
      · by_cases h2 : ch > c
        · rw [if_neg h1, if_pos h2]; simp only [put]; rw [if_neg h1, if_pos h2, ihh]
        · rw [if_neg h1, if_neg h2]
          by_cases h3 : rest = []
          · rw [if_pos h3]; simp only [put]; rw [if_neg h1, if_neg h2, if_pos h3]
          · rw [if_neg h3]; simp only [put]; rw [if_neg h1, if_neg h2, if_neg h3, ihe]

theorem setPure_idem (t : tstNode V) (k : List Byte) (v : Option V) :
    setPure (setPure t k v) k v = setPure t k v := by
  unfold setPure
  by_cases hk : k = []
  · simp [hk]
  · simp only [if_neg hk]
    cases t with
    | nil => rfl
    | node lower higher equal c value =>
      have hne := put_ne_nil (node lower higher equal c value) k v (by simp)
      cases hp : put (node lower higher equal c value) k v with
      | nil => exact absurd hp hne
      | node l1 h1 e1 c1 v1 =>
        simp only
        exact put_idem _ _ _

theorem setPure_of_endOf {t : tstNode V} {k : List Byte} {pos : List Link} (v : Option V)
    (h : endOf t k = some pos) : setPure t k v = setValueAt t pos v := by
  obtain ⟨ht, hk⟩ := endOf_ne_nil h
  unfold setPure
  rw [if_neg hk]
  cases t with
  | nil => exact absurd rfl ht
  | node lower higher equal c value => exact put_eq_setValueAt _ _ _ v h

theorem endOf_setPure_self (t : tstNode V) (k : List Byte) (v : Option V)
    (ht : t ≠ nil) (hk : k ≠ []) : ∃ pos, endOf (setPure t k v) k = some pos := by
  unfold setPure
  rw [if_neg hk]
  cases t with
  | nil => exact absurd rfl ht
  | node lower higher equal c value => exact endOf_put_self _ _ v hk

theorem endOf_setPure_other (t : tstNode V) (k k1 : List Byte) (v : Option V)
    (pos : List Link) (h : endOf t k = some pos) : endOf (setPure t k1 v) k = some pos := by
  unfold setPure
  split_ifs
  · exact h
  · cases t with
    | nil => cases k <;> cases h
    | node lower higher equal c value => exact endOf_put_other _ _ _ v pos h

/-! ### Nodes are only added -/

theorem size_chain (value : Option V) : ∀ k : List Byte, size (chain value k) = k.length := by
  intro k
  induction k with
  | nil => rfl
  | cons ch rest ih =>
    cases rest with
    | nil => rfl
    | cons ch1 rest1 =>
      have hstep : chain value (ch :: ch1 :: rest1) =
          node nil nil (chain value (ch1 :: rest1)) ch none := rfl
      rw [hstep]
      simp only [size, ih, List.length_cons]
      omega

theorem size_put :
    ∀ (t : tstNode V) (k : List Byte) (v : Option V),
      size t ≤ size (put t k v) ∧ size (put t k v) ≤ size t + k.length := by
  intro t
  induction t with
  | nil => intro k v; simp [put, size_chain, size]
  | node lower higher equal c value ihl ihh ihe =>
    intro k v
    cases k with
    | nil => simp [put]
    | cons ch rest =>
      simp only [put]
      by_cases h1 : ch < c
      · rw [if_pos h1]
        have := ihl (ch :: rest) v
        simp only [size, List.length_cons] at this ⊢
        omega
      · by_cases h2 : ch > c
        · rw [if_neg h1, if_pos h2]
          have := ihh (ch :: rest) v
          simp only [size, List.length_cons] at this ⊢
          omega
        · rw [if_neg h1, if_neg h2]
          by_cases h3 : rest = []
          · rw [if_pos h3]
            simp only [size, List.length_cons]
            omega
          · rw [if_neg h3]
            have := ihe rest v
            simp only [size, List.length_cons] at this ⊢
            omega

theorem nodeAt_put :
    ∀ (t : tstNode V) (k : List Byte) (v : Option V) (p : List Link) (c : Byte)
      (val : Option V), nodeAt t p = some (c, val) →
      ∃ val1, nodeAt (put t k v) p = some (c, val1) := by
  intro t
  induction t with
  | nil => intro k v p c val h; rw [nodeAt_nil] at h; cases h
  | node lower higher equal c0 value ihl ihh ihe =>
    intro k v p c val h
    cases k with
    | nil => exact ⟨val, h⟩
    | cons ch rest =>
      simp only [put]
      by_cases h1 : ch < c0
      · rw [if_pos h1]
        cases p with
        | nil => exact ⟨val, h⟩
        | cons l ps =>
          cases l
          · exact ihl _ v ps c val h
          · exact ⟨val, h⟩
          · exact ⟨val, h⟩
      · by_cases h2 : ch > c0
        · rw [if_neg h1, if_pos h2]
          cases p with
          | nil => exact ⟨val, h⟩
          | cons l ps =>
            cases l
            · exact ⟨val, h⟩
            · exact ihh _ v ps c val h
            · exact ⟨val, h⟩
        · rw [if_neg h1, if_neg h2]
          by_cases h3 : rest = []
          · rw [if_pos h3]
            cases p with
            | nil =>
              rw [nodeAt_node_nil] at h
              have hc : c0 = c := (Prod.mk.inj (Option.some.inj h)).1
              exact ⟨v, by rw [nodeAt_node_nil, hc]⟩
            | cons l ps => cases l <;> exact ⟨val, h⟩
          · rw [if_neg h3]
            cases p with
            | nil => exact ⟨val, h⟩
            | cons l ps =>
              cases l
              · exact ⟨val, h⟩
              · exact ⟨val, h⟩
              · exact ihe _ v ps c val h

theorem size_setPure (t : tstNode V) (k : List Byte) (v : Option V) :
    size t ≤ size (setPure t k v) ∧ size (setPure t k v) ≤ size t + k.length := by
  unfold setPure
  split_ifs
  · omega
  · cases t with
    | nil => simp [size]
    | node lower higher equal c value => exact size_put _ _ _

theorem nodeAt_setPure (t : tstNode V) (k : List Byte) (v : Option V) (p : List Link)
    (c : Byte) (val : Option V) (h : nodeAt t p = some (c, val)) :
    ∃ val1, nodeAt (setPure t k v) p = some (c, val1) := by
  unfold setPure
  split_ifs
  · exact ⟨val, h⟩
  · cases t with
    | nil => exact ⟨val, h⟩
    | node lower higher equal c0 value => exact nodeAt_put _ _ _ _ _ _ h

theorem endOf_setAll :
    ∀ (ops : List (List Byte × Option V)) (t : tstNode V) (k : List Byte) (pos : List Link),
      endOf t k = some pos → ∃ t1, setAll t ops = some t1 ∧ endOf t1 k = some pos := by
  intro ops
  induction ops with
  | nil => intro t k pos h; exact ⟨t, rfl, h⟩
  | cons op rest ih =>
    intro t k pos h
    obtain ⟨k0, v0⟩ := op
    obtain ⟨t1, h1, h2⟩ := ih (setPure t k0 v0) k pos (endOf_setPure_other t k k0 v0 pos h)
    exact ⟨t1, by simp [setAll, Set_eq_setPure, h1], h2⟩

/-! ### Reads stay inside the key -/

theorem getLoopReads_lt (key : List Byte) :
    ∀ (n : tstNode V) (idx : Nat) (char : Byte), idx < key.length →
      ∀ i ∈ getLoopReads key (key.length - 1) n idx char, i < key.length := by
  intro n
  induction n with
  | nil => intro idx char _ i hi; simp [getLoopReads] at hi
  | node lower higher equal c value ihl ihh ihe =>
    intro idx char hlt i hi
    simp only [getLoopReads] at hi
    by_cases h1 : char < c
    · rw [if_pos h1] at hi; exact ihl idx char hlt i hi
    · by_cases h2 : char > c
      · rw [if_neg h1, if_pos h2] at hi; exact ihh idx char hlt i hi
      · rw [if_neg h1, if_neg h2] at hi
        by_cases h3 : idx = key.length - 1
        · rw [if_pos h3] at hi; cases hi
        · rw [if_neg h3] at hi
          have hlt1 : idx + 1 < key.length := by omega
          rw [List.getElem?_eq_getElem hlt1] at hi
          rcases List.mem_cons.mp hi with h | h
          · rw [h]; exact hlt1
          · exact ihe (idx + 1) _ hlt1 i h

theorem GetReads_lt (t : tstNode V) (key : List Byte) :
    ∀ i ∈ GetReads t key, i < key.length := by
  intro i hi
  unfold GetReads at hi
  cases key with
  | nil => simp at hi
  | cons ch rest =>
    cases t with
    | nil => simp at hi
    | node lower higher equal c value =>
      simp only [List.length_cons, Nat.lt_one_iff, Nat.add_one_ne_zero, if_false,
        List.getElem?_cons_zero] at hi
      rcases List.mem_cons.mp hi with h | h
      · rw [h]; simp
      · exact getLoopReads_lt (ch :: rest) _ 0 ch (by simp) i h

theorem insertNilReads_lt (key : List Byte) :
    ∀ (dist index : Nat), index < key.length → dist = key.length - index →
      ∀ i ∈ insertNilReads key dist index, i < key.length := by
  intro dist
  induction dist with
  | zero => intro index h1 h2; omega
  | succ d ih =>
    intro index hlt hd i hi
    simp only [insertNilReads, List.getElem?_eq_getElem hlt] at hi
    rcases List.mem_cons.mp hi with h | h
    · rw [h]; exact hlt
    · by_cases h3 : index = key.length - 1
      · rw [if_pos h3] at h; cases h
      · rw [if_neg h3] at h
        exact ih (index + 1) (by omega) (by omega) i h

theorem insertReads_lt (key : List Byte) :
    ∀ (n : tstNode V) (index : Nat), index < key.length →
      ∀ i ∈ insertReads n key index, i < key.length := by
  intro n
  induction n with
  | nil =>
    intro index hlt i hi
    exact insertNilReads_lt key _ index hlt rfl i hi
  | node lower higher equal c value ihl ihh ihe =>
    intro index hlt i hi
    simp only [insertReads, List.getElem?_eq_getElem hlt] at hi
    rcases List.mem_cons.mp hi with h | h
    · rw [h]; exact hlt
    · by_cases h1 : key[index] < c
      · rw [if_pos h1] at h; exact ihl index hlt i h
      · by_cases h2 : key[index] > c
        · rw [if_neg h1, if_pos h2] at h; exact ihh index hlt i h
        · rw [if_neg h1, if_neg h2] at h
          by_cases h3 : index = key.length - 1
          · rw [if_pos h3] at h; cases h
          · rw [if_neg h3] at h
            exact ihe (index + 1) (by omega) i h

theorem SetReads_lt (t : tstNode V) (key : List Byte) :
    ∀ i ∈ SetReads t key, i < key.length := by
  intro i hi
  unfold SetReads at hi
  cases key with
  | nil => simp at hi
  | cons ch rest =>
    simp only [List.length_cons, Nat.lt_one_iff, Nat.add_one_ne_zero, if_false] at hi
    exact insertReads_lt (ch :: rest) t 0 (by simp) i hi

/-! ### Order of insertion -/

theorem lookup_setPure_eq (t : tstNode V) (k k1 : List Byte) (v : Option V) (ht : t ≠ nil) :
    lookup (setPure t k v) k1 = if k ≠ [] ∧ k1 = k then v else lookup t k1 := by
  by_cases hk : k = []
  · subst hk
    simp [setPure]
  · by_cases h1 : k1 = k
    · subst h1
      rw [if_pos ⟨hk, rfl⟩]
      exact lookup_setPure_self t k1 v ht hk
    · rw [if_neg (fun h => h1 h.2)]
      exact lookup_setPure_other t k k1 v h1

theorem setPure_nil (k : List Byte) (v : Option V) : setPure (nil : tstNode V) k v = nil := by
  unfold setPure
  split_ifs <;> rfl

end tstNode

/-- C14. The search-tree ordering invariant. `Set` preserves it: on every
ordered tree `t`, `Set(k, v)` succeeds and leaves an ordered tree. Every tree
built from `newTST()` by a sequence `ops` of `Set` calls is ordered, that is,
at every node `n` of it (at every position `pos`) all chars reachable from
`n.lower` by `lower`/`higher` links are strictly smaller than `n.char` and
all chars reachable from `n.higher` are strictly greater. -/
theorem tst_ordering_invariant {V : Type} (ops : List (List Byte × Option V))
    (t : tstNode V) (k : List Byte) (v : Option V) (ht : ordered t = true) :
    (∃ t1, Set t k v = some t1 ∧ ordered t1 = true) ∧
    ∃ t0, setAll (newTST : tstNode V) ops = some t0 ∧ ordered t0 = true ∧
      ∀ pos lower higher equal c value, follow t0 pos = node lower higher equal c value →
        (∀ x ∈ siblingChars lower, x < c) ∧ (∀ x ∈ siblingChars higher, c < x) := by
  refine ⟨⟨setPure t k v, Set_eq_setPure _ _ _, ordered_setPure _ _ _ ht⟩, ?_⟩
  obtain ⟨t0, h0, ho⟩ := ordered_setAll ops (newTST : tstNode V) rfl
  refine ⟨t0, h0, ho, ?_⟩
  intro pos lower higher equal c value hf
  have := ordered_follow pos t0 ho
  rw [hf, ordered_node_iff] at this
  exact ⟨this.1, this.2.1⟩

/-- Witness of C14: `Set("a", 2)` on the ordered tree that holds `"b"`. -/
theorem tst_ordering_invariant_witness :
    ordered (node nil (node nil nil nil 98 (some 1)) nil 0 (none : Option Nat)) = true ∧
    ((∃ t1, Set (node nil (node nil nil nil 98 (some 1)) nil 0 (none : Option Nat)) [97] (some 2)
        = some t1 ∧ ordered t1 = true) ∧
    ∃ t0, setAll (newTST : tstNode Nat) [([98], some 1), ([97], some 2)] = some t0 ∧
      ordered t0 = true ∧
      ∀ pos lower higher equal c value, follow t0 pos = node lower higher equal c value →
        (∀ x ∈ siblingChars lower, x < c) ∧ (∀ x ∈ siblingChars higher, c < x)) :=
  ⟨by decide, tst_ordering_invariant [([98], some 1), ([97], some 2)] _ [97] (some 2) (by decide)⟩

/-- C15. Re-insertion overwrites in place. When the whole path of the key `k`
exists in `t` and ends at position `pos`, `Set(k, v)` succeeds, creates no
node, and leaves every node as it was except that the node at `pos` now
carries `v`; a second `Set(k, v)` changes nothing. The path of a key exists
once the key has been passed to `Set` on a TST, and stays through any later
`Set` calls; and on every tree `Set(k, v)` twice gives the tree `Set(k, v)`
gives once. -/
theorem tst_reinsert_in_place {V : Type} (t : tstNode V) (k : List Byte) (v : Option V)
    (pos : List Link) (h : endOf t k = some pos) :
    (∃ t1, Set t k v = some t1 ∧ t1 = setValueAt t pos v ∧ size t1 = size t ∧
      (∀ p, p ≠ pos → nodeAt t1 p = nodeAt t p) ∧
      (∃ c old, nodeAt t pos = some (c, old) ∧ nodeAt t1 pos = some (c, v)) ∧
      Set t1 k v = some t1) ∧
    (∀ (t0 : tstNode V) (v0 : Option V) (ops : List (List Byte × Option V)), t0 ≠ nil →
      ∃ ta tb p, Set t0 k v0 = some ta ∧ setAll ta ops = some tb ∧ endOf tb k = some p) ∧
    (∀ (t0 : tstNode V) (k0 : List Byte) (v0 : Option V),
      ∃ ta, Set t0 k0 v0 = some ta ∧ Set ta k0 v0 = some ta) := by
  obtain ⟨_, hk⟩ := endOf_ne_nil h
  refine ⟨⟨setPure t k v, Set_eq_setPure _ _ _, setPure_of_endOf v h, ?_, ?_, ?_, ?_⟩, ?_, ?_⟩
  · rw [setPure_of_endOf v h, size_setValueAt]
  · intro p hp
    rw [setPure_of_endOf v h, nodeAt_setValueAt_ne p t pos v hp]
  · obtain ⟨c, old, hn⟩ := nodeAt_endOf t k pos h
    exact ⟨c, old, hn, by rw [setPure_of_endOf v h]; exact nodeAt_setValueAt_self pos t v c old hn⟩
  · rw [Set_eq_setPure, setPure_idem]
  · intro t0 v0 ops ht0
    obtain ⟨p, hp⟩ := endOf_setPure_self t0 k v0 ht0 hk
    obtain ⟨tb, hb, hpb⟩ := endOf_setAll ops (setPure t0 k v0) k p hp
    exact ⟨setPure t0 k v0, tb, p, Set_eq_setPure _ _ _, hb, hpb⟩
  · intro t0 k0 v0
    exact ⟨setPure t0 k0 v0, Set_eq_setPure _ _ _, by rw [Set_eq_setPure, setPure_idem]⟩

/-- Witness of C15: the key `"ab"` in the tree built by `Set("ab", 1)`. -/
theorem tst_reinsert_in_place_witness :
    endOf (node nil (node nil nil (node nil nil nil 98 (some 1)) 97 none) nil 0
        (none : Option Nat)) [97, 98] = some [Link.higher, Link.equal] ∧
    (∃ t1, Set (node nil (node nil nil (node nil nil nil 98 (some 1)) 97 none) nil 0
        (none : Option Nat)) [97, 98] (some 2) = some t1 ∧
      t1 = setValueAt (node nil (node nil nil (node nil nil nil 98 (some 1)) 97 none) nil 0
        (none : Option Nat)) [Link.higher, Link.equal] (some 2) ∧
      size t1 = size (node nil (node nil nil (node nil nil nil 98 (some 1)) 97 none) nil 0
        (none : Option Nat)) ∧
      (∀ p, p ≠ [Link.higher, Link.equal] → nodeAt t1 p =
        nodeAt (node nil (node nil nil (node nil nil nil 98 (some 1)) 97 none) nil 0
          (none : Option Nat)) p) ∧
      (∃ c old, nodeAt (node nil (node nil nil (node nil nil nil 98 (some 1)) 97 none) nil 0
          (none : Option Nat)) [Link.higher, Link.equal] = some (c, old) ∧
        nodeAt t1 [Link.higher, Link.equal] = some (c, some 2)) ∧
      Set t1 [97, 98] (some 2) = some t1) :=
  ⟨by decide, (tst_reinsert_in_place _ [97, 98] (some 2) [Link.higher, Link.equal]
    (by decide)).1⟩

/-- C16. Nodes are only ever added. For every tree `t`, key `k` and value
`v`, `Set(k, v)` succeeds; every node of `t` is still there afterwards, at the
same position and with the same char; and the number of nodes does not
shrink and grows by at most `len(k)`. -/
theorem tst_nodes_only_added {V : Type} (t : tstNode V) (k : List Byte) (v : Option V) :
    ∃ t1, Set t k v = some t1 ∧
      (∀ p c val, nodeAt t p = some (c, val) → ∃ val1, nodeAt t1 p = some (c, val1)) ∧
      size t ≤ size t1 ∧ size t1 ≤ size t + k.length :=
  ⟨setPure t k v, Set_eq_setPure _ _ _, fun p c val h => nodeAt_setPure t k v p c val h,
    (size_setPure t k v).1, (size_setPure t k v).2⟩

/-- C17. The empty key is never stored. For every tree and value,
`Set(empty key, v)` leaves the tree unchanged, and `Get(empty key)` and
`GetString("")` return nil, before and after. -/
theorem tst_empty_key {V : Type} (t : tstNode V) (v : Option V) :
    Set t [] v = some t ∧ Get t [] = some none ∧ GetString t (str "") = some none ∧
    ∃ t1, Set t [] v = some t1 ∧ t1 = t ∧ Get t1 [] = some none ∧
      GetString t1 (str "") = some none := by
  have h1 : Set t [] v = some t := by simp [tstNode.Set]
  have h2 : Get t [] = some none := by simp [tstNode.Get]
  have h3 : GetString t (str "") = some none := h2
  exact ⟨h1, h2, h3, t, h1, rfl, h2, h3⟩

/-- C18. Key indexing is always in bounds. For every tree and key, every
index at which `Get` reads the key and every index at which `insert`, entered
through `Set`, reads the key is below `len(key)`; neither `Get` nor `Set`
ends in an index-out-of-range panic. -/
theorem tst_reads_in_bounds {V : Type} (t : tstNode V) (k : List Byte) (v : Option V) :
    (∀ i ∈ GetReads t k, i < k.length) ∧ (∀ i ∈ SetReads t k, i < k.length) ∧
    (∃ r, Get t k = some r) ∧ (∃ t1, Set t k v = some t1) :=
  ⟨GetReads_lt t k, SetReads_lt t k, ⟨_, Get_eq_lookup t k⟩, ⟨_, Set_eq_setPure t k v⟩⟩

/-- C19. Lookups do not depend on the order in which two different keys are
inserted: for every tree `t`, keys `k1 ≠ k2` and values `v1`, `v2`, both
orders of the two `Set` calls succeed and the two resulting trees give the
same `Get` result for every key `k`. -/
theorem tst_insertion_order {V : Type} (t : tstNode V) (k1 k2 k : List Byte)
    (v1 v2 : Option V) (hne : k1 ≠ k2) :
    ∃ a a2 b b2, Set t k1 v1 = some a ∧ Set a k2 v2 = some a2 ∧
      Set t k2 v2 = some b ∧ Set b k1 v1 = some b2 ∧ Get a2 k = Get b2 k := by
  refine ⟨setPure t k1 v1, setPure (setPure t k1 v1) k2 v2, setPure t k2 v2,
    setPure (setPure t k2 v2) k1 v1, Set_eq_setPure _ _ _, Set_eq_setPure _ _ _,
    Set_eq_setPure _ _ _, Set_eq_setPure _ _ _, ?_⟩
  rw [Get_eq_lookup, Get_eq_lookup]
  by_cases ht : t = nil
  · subst ht
    simp only [setPure_nil]
  · rw [lookup_setPure_eq _ _ _ _ (setPure_ne_nil _ _ _ ht), lookup_setPure_eq _ _ _ _ ht,
      lookup_setPure_eq _ _ _ _ (setPure_ne_nil _ _ _ ht), lookup_setPure_eq _ _ _ _ ht]
    by_cases h1 : k = k1
    · by_cases h2 : k = k2
      · exact absurd (h1.symm.trans h2) hne
      · simp [h1, h2, hne]
    · by_cases h2 : k = k2
      · subst h2
        have h3 : ¬ (k1 ≠ [] ∧ k = k1) := fun h => h1 h.2
        simp only [if_neg h3]
      · simp [h1, h2]

/-- Witness of C19: `"a"` and `"b"` inserted in both orders into `newTST()`;
the two trees differ in shape and agree on `Get("b")`. -/
theorem tst_insertion_order_witness :
    ([97] : List Byte) ≠ [98] ∧
    setAll (newTST : tstNode Nat) [([97], some 1), ([98], some 2)] ≠
      setAll (newTST : tstNode Nat) [([98], some 2), ([97], some 1)] ∧
    ∃ a a2 b b2, Set (newTST : tstNode Nat) [97] (some 1) = some a ∧
      Set a [98] (some 2) = some a2 ∧ Set (newTST : tstNode Nat) [98] (some 2) = some b ∧
      Set b [97] (some 1) = some b2 ∧ Get a2 [98] = Get b2 [98] :=
  ⟨by decide, by decide,
    tst_insertion_order newTST [97] [98] [98] (some 1) (some 2) (by decide)⟩

/-! ## The Matcher: unbuilt registry, empty path, precedence -/

theorem registerAll_routingTree {H : Type} :
    ∀ (calls : List (List Byte × List Byte × Option H)) (gb : gearbox H),
      (registerAll gb calls).1.routingTree = gb.routingTree := by
  intro calls
  induction calls with
  | nil => intro gb; rfl
  | cons call calls ih =>
    intro gb
    obtain ⟨m, p, h⟩ := call
    cases h with
    | none => simpa [registerAll, registerRoute] using ih gb
    | some h =>
      cases hv : validateRoutePath p with
      | some e => simpa [registerAll, registerRoute, hv] using ih gb
      | none =>
        simp only [registerAll, registerRoute, hv]
        rw [ih]

theorem registerFallback_routingTree {H : Type} (gb : gearbox H) (fb : Option H) :
    (registerFallback gb fb).1.routingTree = gb.routingTree := by
  cases fb <;> rfl

/-- C11. Matching before construction yields nothing. On a router whose
registry was never built, `matchRoute(m, q)` returns nil, without failing, for
every method and path, whatever routes and fallback are registered; and a
router on which only `registerRoute` and `registerFallback` were called, from
the new router on, is such a router. -/
theorem matchRoute_unbuilt {H : Type} (gb : gearbox H) (m q : List Byte)
    (calls : List (List Byte × List Byte × Option H)) (fb : Option H)
    (hnone : gb.routingTree = none) :
    matchRoute gb m q = .ok none ∧
    (registerFallback (registerAll (gearbox.new : gearbox H) calls).1 fb).1.routingTree = none ∧
    matchRoute (registerFallback (registerAll (gearbox.new : gearbox H) calls).1 fb).1 m q
      = .ok none := by
  have h1 : ∀ g : gearbox H, g.routingTree = none → matchRoute g m q = .ok none := by
    intro g hg
    cases q with
    | nil => rfl
    | cons c q1 => simp only [matchRoute, hg]
  have h2 : (registerFallback (registerAll (gearbox.new : gearbox H) calls).1 fb).1.routingTree
      = none := by
    rw [registerFallback_routingTree, registerAll_routingTree]; rfl
  exact ⟨h1 gb hnone, h2, h1 _ h2⟩

/-- Witness of C11: GET `/*` registered and not built, request GET
`/hello/world`, as in `TestNullRoutingTree`. -/
theorem matchRoute_unbuilt_witness :
    (registerAll (gearbox.new : gearbox Nat) [(str "GET", str "/*", some 1)]).1.registeredRoutes
      = [⟨str "GET", str "/*", some 1⟩] ∧
    (matchRoute (registerAll (gearbox.new : gearbox Nat) [(str "GET", str "/*", some 1)]).1
      (str "GET") (str "/hello/world") = .ok none ∧
    (registerFallback (registerAll (gearbox.new : gearbox Nat) []).1 none).1.routingTree = none ∧
    matchRoute (registerFallback (registerAll (gearbox.new : gearbox Nat) []).1 none).1
      (str "GET") (str "/hello/world") = .ok none) :=
  ⟨by decide,
   matchRoute_unbuilt (registerAll (gearbox.new : gearbox Nat) [(str "GET", str "/*", some 1)]).1
    (str "GET") (str "/hello/world") [] none rfl⟩

/-- C12. The empty request path never matches: in every router state (any
routes, built or not, with or without a fallback) and for every method,
`matchRoute(m, "")` returns nil, neither a route handler nor the fallback
handler. -/
theorem matchRoute_empty_path {H : Type} (gb : gearbox H) (m : List Byte) :
    matchRoute gb m (str "") = .ok none ∧ matchRouteParams gb m (str "") = .ok none :=
  ⟨rfl, rfl⟩

theorem wildcardCapture_fst {H : Type} (n : routeNode H) (remaining : List (List Byte)) :
    (wildcardCapture n remaining).map Prod.fst = n.wildcardHandler := by
  cases n with
  | mk name k handler children p w =>
    cases w with
    | none => rfl
    | some wc =>
      simp only [wildcardCapture, routeNode.wildcardChild, routeNode.wildcardHandler]
      cases wc.handler <;> rfl

theorem matchCapture_eq_capturePure {H : Type} :
    ∀ (segs : List (List Byte)) (n : routeNode H),
      matchCapture segs n = .ok (capturePure segs n) := by
  intro segs
  induction segs with
  | nil =>
    intro n
    cases n with
    | mk name kd handler children p w =>
      cases handler <;> rfl
  | cons seg rest ih =>
    intro n
    cases n with
    | mk name kd handler children p w =>
      simp only [matchCapture, capturePure, literalChildren.get_eq_lookup, childAt,
        routeNode.children, routeNode.paramChild]
      cases hl : children.lookup seg with
      | none =>
        cases p with
        | none => rfl
        | some pc =>
          simp only [ih pc]
          cases capturePure rest pc with
          | none => rfl
          | some r => rfl
      | some lc =>
        simp only [ih lc]
        cases capturePure rest lc with
        | some x => rfl
        | none =>
          cases p with
          | none => rfl
          | some pc =>
            simp only [ih pc]
            cases capturePure rest pc with
            | none => rfl
            | some r => rfl

/-- The handler of the walk with captures is the handler of the walk. -/
theorem capturePure_fst {H : Type} :
    ∀ (segs : List (List Byte)) (n : routeNode H),
      (capturePure segs n).map Prod.fst = matchPure segs n := by
  intro segs
  induction segs with
  | nil =>
    intro n
    simp only [capturePure, matchPure]
    cases n.handler with
    | some h => rfl
    | none => exact wildcardCapture_fst n []
  | cons seg rest ih =>
    intro n
    simp only [capturePure, matchPure]
    have hparam : (match n.paramChild with
        | none => wildcardCapture n (seg :: rest)
        | some pc =>
          match capturePure rest pc with
          | some (h, caps) => some (h, (pc.Name, [seg]) :: caps)
          | none => wildcardCapture n (seg :: rest)).map Prod.fst =
        (match (match n.childAt .parameter seg with
          | none => none
          | some c => matchPure rest c : Option H) with
        | some h => some h
        | none => n.wildcardHandler) := by
      have hpc : n.childAt .parameter seg = n.paramChild := rfl
      rw [hpc]
      cases hp : n.paramChild with
      | none => exact wildcardCapture_fst n _
      | some pc =>
        simp only
        rw [← ih pc]
        cases capturePure rest pc with
        | none => exact wildcardCapture_fst n _
        | some r => rfl
    cases hl : n.childAt .literal seg with
    | none => exact hparam
    | some lc =>
      simp only
      rw [← ih lc]
      cases capturePure rest lc with
      | none => exact hparam
      | some r => rfl

theorem matchRouteParams_fst {H : Type} (gb : gearbox H) (m q : List Byte) :
    ∃ r, matchRouteParams gb m q = .ok r ∧ matchRoute gb m q = .ok (r.map Prod.fst) := by
  cases q with
  | nil => exact ⟨none, rfl, rfl⟩
  | cons c q1 =>
    simp only [matchRouteParams, matchRoute, matchRegistered]
    cases gb.routingTree with
    | none => exact ⟨none, rfl, rfl⟩
    | some reg =>
      simp only
      cases reg.lookup m with
      | none =>
        refine ⟨_, rfl, ?_⟩
        cases gb.registeredFallback <;> rfl
      | some root =>
        simp only
        cases pathSegments (c :: q1) with
        | error e =>
          refine ⟨_, rfl, ?_⟩
          cases gb.registeredFallback <;> rfl
        | ok segs =>
          simp only [matchCapture_eq_capturePure, matchSegs_eq_matchPure, ← capturePure_fst]
          cases capturePure segs root with
          | some r => exact ⟨_, rfl, rfl⟩
          | none =>
            refine ⟨_, rfl, ?_⟩
            cases gb.registeredFallback <;> rfl

/-- C13. Match precedence is literal, then parameter, then wildcard, with
backtracking. At every node `n` the walk never fails. At the end of the path
it returns the node's handler, and failing that the wildcard child's handler
(zero remaining segments). On a segment `seg` followed by `rest` it returns
the result of the literal child for `seg` when that subtree completes a
match of `rest`; otherwise the result of the parameter child, with `seg`
bound to the name stored on that child; otherwise the handler of the
wildcard child when there is one, which captures all remaining segments.
The handler is the one `matchSegs` and `matchRoute` return. In the tree of
`/a/b/c`, `/a/:id/d` and `/a/*` the request `/a/b/d` leaves the literal child
`b` again and is matched through the parameter child. -/
theorem matchSegs_precedence {H : Type} (n : routeNode H) (seg : List Byte)
    (rest : List (List Byte)) :
    (∀ h, n.handler = some h → matchCapture [] n = .ok (some (h, []))) ∧
    (n.handler = none → matchCapture [] n = .ok (wildcardCapture n [])) ∧
    (∃ r, matchCapture (seg :: rest) n = .ok r ∧
      matchSegs (seg :: rest) n = .ok (r.map Prod.fst) ∧
      (∀ c res, n.children.get seg = some (some c) →
        matchCapture rest c = .ok (some res) → r = some res) ∧
      (∀ pc h caps,
        (∀ c, n.children.get seg = some (some c) → matchCapture rest c = .ok none) →
        n.paramChild = some pc → matchCapture rest pc = .ok (some (h, caps)) →
        r = some (h, (pc.Name, [seg]) :: caps)) ∧
      ((∀ c, n.children.get seg = some (some c) → matchCapture rest c = .ok none) →
        (∀ pc, n.paramChild = some pc → matchCapture rest pc = .ok none) →
        r = wildcardCapture n (seg :: rest))) ∧
    (∀ w h remaining, n.wildcardChild = some w → w.handler = some h →
      wildcardCapture n remaining = some (h, [(w.Name, remaining)])) ∧
    (∀ (gb : gearbox H) m q, ∃ r, matchRouteParams gb m q = .ok r ∧
      matchRoute gb m q = .ok (r.map Prod.fst)) ∧
    matchRouteParams (constructRoutingTree 58 (registerAll (gearbox.new : gearbox Nat)
        [(str "GET", str "/a/b/c", some 4), (str "GET", str "/a/:id/d", some 5),
         (str "GET", str "/a/*", some 3)]).1).1 (str "GET") (str "/a/b/d")
      = .ok (some (5, [(str ":id", [str "b"])])) ∧
    matchRouteParams (constructRoutingTree 58 (registerAll (gearbox.new : gearbox Nat)
        [(str "GET", str "/a/b/c", some 4), (str "GET", str "/a/:id/d", some 5),
         (str "GET", str "/a/*", some 3)]).1).1 (str "GET") (str "/a/b/e")
      = .ok (some (3, [(str "*", [str "b", str "e"])])) := by
  have hlit : ∀ c, n.children.get seg = some (some c) → n.childAt .literal seg = some c := by
    intro c hc
    rw [literalChildren.get_eq_lookup] at hc
    exact Option.some.inj hc
  have hpure : ∀ (segs : List (List Byte)) (c : routeNode H) (x : Option (H × Captures)),
      matchCapture segs c = .ok x → capturePure segs c = x := by
    intro segs c x hx
    rw [matchCapture_eq_capturePure] at hx
    exact Except.ok.inj hx
  refine ⟨?_, ?_, ⟨capturePure (seg :: rest) n, matchCapture_eq_capturePure _ _, ?_, ?_, ?_, ?_⟩,
    ?_, matchRouteParams_fst, rfl, rfl⟩
  · intro h hh
    rw [matchCapture_eq_capturePure]
    simp only [capturePure, hh]
  · intro hh
    rw [matchCapture_eq_capturePure]
    simp only [capturePure, hh]
  · rw [matchSegs_eq_matchPure, capturePure_fst]
  · intro c res hc hres
    simp only [capturePure, hlit c hc, hpure _ _ _ hres]
  · intro pc h caps hno hpc hres
    have hl : (match n.childAt .literal seg with
        | none => none
        | some c => capturePure rest c : Option (H × Captures)) = none := by
      cases hc : n.childAt .literal seg with
      | none => rfl
      | some c =>
        have hg : n.children.get seg = some (some c) := by
          rw [literalChildren.get_eq_lookup]; exact congrArg some hc
        exact hpure _ _ _ (hno c hg)
    simp only [capturePure, hl, hpc, hpure _ _ _ hres]
  · intro hno hnop
    have hl : (match n.childAt .literal seg with
        | none => none
        | some c => capturePure rest c : Option (H × Captures)) = none := by
      cases hc : n.childAt .literal seg with
      | none => rfl
      | some c =>
        have hg : n.children.get seg = some (some c) := by
          rw [literalChildren.get_eq_lookup]; exact congrArg some hc
        exact hpure _ _ _ (hno c hg)
    simp only [capturePure, hl]
    cases hp : n.paramChild with
    | none => rfl
    | some pc => simp only [hpure _ _ _ (hnop pc hp)]
  · intro w h remaining hw hh
    simp only [wildcardCapture, hw, hh]

/-! ## context.go: the handler chain -/

theorem wrapInt_succ (i : Int) (h0 : 0 ≤ i) (h1 : i < maxInt) : wrapInt (i + 1) = i + 1 := by
  unfold wrapInt
  unfold maxInt at h1
  omega

/-- Counterexample to C20 as stated: a context with index `MaxInt64` (which
is not negative) and a chain of one handler. `ctx.index++` wraps around to
`MinInt64`, the test `ctx.index < len(ctx.handlers)` succeeds and the read
`ctx.handlers[ctx.index]` is out of range: `Next` panics instead of setting
the index to `i + 1` and invoking no handler. The same happens with an empty
chain. -/
theorem Next_overflow_counterexample :
    (0 : Int) ≤ maxInt ∧
    wrapInt (maxInt + 1) = -9223372036854775808 ∧
    nextStep (⟨(), (), [7], maxInt⟩ : context Unit Unit Nat) = none ∧
    Next (fun _ c => c) (⟨(), (), [7], maxInt⟩ : context Unit Unit Nat) = none ∧
    nextStep (⟨(), (), [], maxInt⟩ : context Unit Unit Nat) = none := by
  decide

/-- C20, amended. Middleware chain stepping, for an index `i` with
`0 ≤ i < MaxInt64`, so that `i + 1` does not overflow. `Next` sets the index
to `i + 1` and leaves the chain, the parameter values and the request
context as they are; when `i + 1 < len(handlers)` it reads `handlers[i + 1]`
in range and invokes exactly that handler, on the context with the new
index; when `i + 1 ≥ len(handlers)` it invokes no handler, reads nothing and
changes nothing but the index. -/
theorem Next_steps {R P F : Type} (ctx : context R P F)
    (call : F → context R P F → context R P F)
    (h0 : 0 ≤ ctx.index) (h1 : ctx.index < maxInt) :
    ∃ step, nextStep ctx = some step ∧
      step.1 = { ctx with index := ctx.index + 1 } ∧
      step.1.handlers = ctx.handlers ∧ step.1.paramValues = ctx.paramValues ∧
      step.1.requestCtx = ctx.requestCtx ∧
      (ctx.index + 1 < (ctx.handlers.length : Int) →
        ∃ h, ctx.handlers[(ctx.index + 1).toNat]? = some h ∧ step.2 = some h ∧
          Next call ctx = some (call h { ctx with index := ctx.index + 1 })) ∧
      (¬ ctx.index + 1 < (ctx.handlers.length : Int) →
        step.2 = none ∧ Next call ctx = some { ctx with index := ctx.index + 1 }) := by
  have hw := wrapInt_succ ctx.index h0 h1
  by_cases hlt : ctx.index + 1 < (ctx.handlers.length : Int)
  · have hnat : (ctx.index + 1).toNat < ctx.handlers.length := by omega
    have hget : ctx.handlers[(ctx.index + 1).toNat]? = some (ctx.handlers[(ctx.index + 1).toNat]) :=
      List.getElem?_eq_getElem hnat
    have hnn : ¬ ctx.index + 1 < 0 := by omega
    have hstep : nextStep ctx =
        some ({ ctx with index := ctx.index + 1 }, some (ctx.handlers[(ctx.index + 1).toNat])) := by
      simp only [nextStep, hw, if_pos hlt, if_neg hnn, hget]
    refine ⟨_, hstep, rfl, rfl, rfl, rfl, ?_, ?_⟩
    · intro _
      exact ⟨_, hget, rfl, by simp only [Next, hstep]⟩
    · intro hn; exact absurd hlt hn
  · have hstep : nextStep ctx = some ({ ctx with index := ctx.index + 1 }, none) := by
      simp only [nextStep, hw, if_neg hlt]
    refine ⟨_, hstep, rfl, rfl, rfl, rfl, ?_, ?_⟩
    · intro h; exact absurd h hlt
    · intro _
      exact ⟨rfl, by simp only [Next, hstep]⟩

/-- Witness of C20, amended: a chain of two handlers, at index 0 (the second
handler is invoked) and at index 1 (no handler is invoked). -/
theorem Next_steps_witness :
    (nextStep (⟨(), (), [7, 8], 0⟩ : context Unit Unit Nat)
        = some (⟨(), (), [7, 8], 1⟩, some 8) ∧
     nextStep (⟨(), (), [7, 8], 1⟩ : context Unit Unit Nat)
        = some (⟨(), (), [7, 8], 2⟩, none)) ∧
    ∃ step, nextStep (⟨(), (), [7, 8], 0⟩ : context Unit Unit Nat) = some step ∧
      step.1 = { (⟨(), (), [7, 8], 0⟩ : context Unit Unit Nat) with index := 0 + 1 } ∧
      step.1.handlers = [7, 8] ∧ step.1.paramValues = () ∧ step.1.requestCtx = () ∧
      ((0 : Int) + 1 < (([7, 8] : List Nat).length : Int) →
        ∃ h, ([7, 8] : List Nat)[((0 : Int) + 1).toNat]? = some h ∧ step.2 = some h ∧
          Next (fun _ c => c) (⟨(), (), [7, 8], 0⟩ : context Unit Unit Nat) =
            some ((fun _ c => c) h
              { (⟨(), (), [7, 8], 0⟩ : context Unit Unit Nat) with index := 0 + 1 })) ∧
      (¬ (0 : Int) + 1 < (([7, 8] : List Nat).length : Int) →
        step.2 = none ∧ Next (fun _ c => c) (⟨(), (), [7, 8], 0⟩ : context Unit Unit Nat) =
          some { (⟨(), (), [7, 8], 0⟩ : context Unit Unit Nat) with index := 0 + 1 }) :=
  ⟨by decide,
   Next_steps (⟨(), (), [7, 8], 0⟩ : context Unit Unit Nat) (fun _ c => c)
    (by decide) (by decide)⟩

end Gearbox
